import Mathlib

/-!
Shallow embedding of the Maze-Runner repository's `main.py`.

Python `int` is modelled by `Int`; Python lists of booleans by `List Bool`;
Python list indexing (which supports negative wrap-around and raises
`IndexError` on out-of-range access) by `pyGet` / `pySet` returning `Option`;
a failed `assert` (Python `AssertionError`) is modelled by returning `none`.
Python `//` and `%` (floor division / floor-signed modulus) are `Int.fdiv`
and `Int.fmod`.  `random.shuffle` of the direction list is modelled by an
externally supplied stream `rnd : Nat → List Direction` giving the direction
order used at the k-th loop iteration.  The `while` loop of
`_carve_path_iter` is modelled with explicit fuel; exhausting the fuel is a
distinct outcome `outOfFuel` so that termination is a provable statement.
-/

namespace MazeRunner

inductive Direction : Type
  | NORTH
  | SOUTH
  | EAST
  | WEST
  deriving DecidableEq

/-- `list(Direction)` in iteration order of the Python `IntEnum`. -/
def allDirections : List Direction := [.NORTH, .SOUTH, .EAST, .WEST]

/-- The fields of the `Maze` object (`self._n_rows`, `self._n_cols`,
`self._start_pos`, `self._goal_pos`, `self._horizontal_edges`,
`self._vertical_edges`, `self._visited`). -/
structure Maze : Type where
  nRows : Int
  nCols : Int
  startPos : Int × Int
  goalPos : Int × Int
  horizontalEdges : List Bool
  verticalEdges : List Bool
  visited : List Bool
  deriving DecidableEq

/-- Python list read `l[i]`: negative indices wrap around once; an index
out of range raises (modelled as `none`). -/
def pyGet {α : Type} (l : List α) (i : Int) : Option α :=
  if 0 ≤ i then l[i.toNat]?
  else if 0 ≤ i + l.length then l[(i + l.length).toNat]?
  else none

/-- Python list write `l[i] = v` (same index semantics as `pyGet`). -/
def pySet {α : Type} (l : List α) (i : Int) (v : α) : Option (List α) :=
  if 0 ≤ i then
    if i.toNat < l.length then some (l.set i.toNat v) else none
  else if 0 ≤ i + l.length then some (l.set (i + l.length).toNat v) else none

/-- Python `range(n)` as a list of integers. -/
def intRange (n : Int) : List Int := (List.range n.toNat).map Int.ofNat

/-- `Maze._get_north_edge_idx` with its two asserts. -/
def get_north_edge_idx (m : Maze) (row col : Int) : Option Int :=
  if row > 0 ∧ row < m.nRows ∧ col ≥ 0 ∧ col < m.nCols then
    some (m.nCols * (row - 1) + col)
  else none

/-- `Maze._get_south_edge_idx` with its two asserts. -/
def get_south_edge_idx (m : Maze) (row col : Int) : Option Int :=
  if row ≥ 0 ∧ row < m.nRows - 1 ∧ col ≥ 0 ∧ col < m.nCols then
    some (m.nCols * row + col)
  else none

/-- `Maze._get_east_edge_idx` with its two asserts.  Note the source
asserts `row < self._n_cols` (not `n_rows`). -/
def get_east_edge_idx (m : Maze) (row col : Int) : Option Int :=
  if row ≥ 0 ∧ row < m.nCols ∧ col ≥ 0 ∧ col < m.nCols - 1 then
    some (m.nCols * row - row + col)
  else none

/-- `Maze._get_west_edge_idx` with its two asserts.  Note the source
asserts `row < self._n_cols` (not `n_rows`). -/
def get_west_edge_idx (m : Maze) (row col : Int) : Option Int :=
  if row ≥ 0 ∧ row < m.nCols ∧ col > 0 ∧ col < m.nCols then
    some (m.nCols * row - row + (col - 1))
  else none

/-- `Maze._get_edge_idx`. -/
def get_edge_idx (m : Maze) (row col : Int) (d : Direction) : Option Int :=
  match d with
  | .NORTH => get_north_edge_idx m row col
  | .SOUTH => get_south_edge_idx m row col
  | .EAST => get_east_edge_idx m row col
  | .WEST => get_west_edge_idx m row col

/-- `Maze._get_edge_at`. -/
def get_edge_at (m : Maze) (row col : Int) (d : Direction) : Option Bool := do
  let idx ← get_edge_idx m row col d
  match d with
  | .NORTH | .SOUTH => pyGet m.horizontalEdges idx
  | .EAST | .WEST => pyGet m.verticalEdges idx

/-- `Maze._set_edge_at`. -/
def set_edge_at (m : Maze) (row col : Int) (d : Direction) (val : Bool) :
    Option Maze := do
  let idx ← get_edge_idx m row col d
  match d with
  | .NORTH | .SOUTH => do
    let l ← pySet m.horizontalEdges idx val
    pure { m with horizontalEdges := l }
  | .EAST | .WEST => do
    let l ← pySet m.verticalEdges idx val
    pure { m with verticalEdges := l }

/-- `Maze._get_cell_index` with its two asserts. -/
def get_cell_index (m : Maze) (row col : Int) : Option Int :=
  if row ≥ 0 ∧ row < m.nRows ∧ col ≥ 0 ∧ col < m.nCols then
    some (row * m.nCols + col)
  else none

/-- `Maze._get_cell_at` with its two asserts. -/
def get_cell_at (m : Maze) (row col : Int) (d : Direction) :
    Option (Int × Int) :=
  if row ≥ 0 ∧ row < m.nRows ∧ col ≥ 0 ∧ col < m.nCols then
    some (match d with
      | .NORTH => (row - 1, col)
      | .SOUTH => (row + 1, col)
      | .EAST => (row, col + 1)
      | .WEST => (row, col - 1))
  else none

/-- `Maze._get_cell_coords` with its assert.  The source divides by
`self._n_rows`. -/
def get_cell_coords (m : Maze) (cellIdx : Int) : Option (Int × Int) :=
  if cellIdx ≥ 0 ∧ cellIdx < m.nCols * m.nRows then
    some (Int.fdiv cellIdx m.nRows, Int.fmod cellIdx m.nRows)
  else none

/-- `Maze._has_non_visited_neighbours`. -/
def has_non_visited_neighbours (m : Maze) (row col : Int) : Option Int := do
  let c0 : Int := 0
  let c1 ← (if row > 0 then do
      let i ← get_cell_index m (row - 1) col
      let b ← pyGet m.visited i
      pure (if b = false then c0 + 1 else c0)
    else pure c0)
  let c2 ← (if row < m.nRows - 1 then do
      let i ← get_cell_index m (row + 1) col
      let b ← pyGet m.visited i
      pure (if b = false then c1 + 1 else c1)
    else pure c1)
  let c3 ← (if col > 0 then do
      let i ← get_cell_index m row (col - 1)
      let b ← pyGet m.visited i
      pure (if b = false then c2 + 1 else c2)
    else pure c2)
  let c4 ← (if col < m.nCols - 1 then do
      let i ← get_cell_index m row (col + 1)
      let b ← pyGet m.visited i
      pure (if b = false then c3 + 1 else c3)
    else pure c3)
  pure c4

/-- The `for d in directions` body of `_carve_path_iter`, processing the
shuffled direction list `ds` for the popped `node`.  The stack top is the
list head (Python appends to and pops from the list tail). -/
def carve_dirs (m : Maze) (node : Int × Int) (ds : List Direction)
    (stack : List (Int × Int)) : Option (Maze × List (Int × Int)) :=
  match ds with
  | [] => some (m, stack)
  | d :: rest => do
    let next ← get_cell_at m node.1 node.2 d
    if next.1 < 0 ∨ next.1 ≥ m.nRows then
      carve_dirs m node rest stack
    else if next.2 < 0 ∨ next.2 ≥ m.nCols then
      carve_dirs m node rest stack
    else do
      let nidx ← get_cell_index m next.1 next.2
      let vis ← pyGet m.visited nidx
      if vis then
        carve_dirs m node rest stack
      else do
        let m1 ← set_edge_at m node.1 node.2 d true
        let v ← pySet m1.visited nidx true
        carve_dirs { m1 with visited := v } node rest (next :: stack)

/-- Outcome of a run of the carving pass: normal completion, an
`AssertionError` / `IndexError` (`fail`), or fuel exhaustion. -/
inductive CarveRes : Type
  | ok (m : Maze)
  | fail
  | outOfFuel
  deriving DecidableEq

/-- The `while len(visiting_nodes) > 0` loop of `_carve_path_iter`.
`k` counts iterations (indexing into the shuffle stream `rnd`). -/
def carve_iter_loop (rnd : Nat → List Direction) :
    Nat → Nat → Maze → List (Int × Int) → CarveRes
  | _, 0, _, _ => .outOfFuel
  | k, fuel + 1, m, stack =>
    match stack with
    | [] => .ok m
    | node :: rest =>
      match (do
        let h ← has_non_visited_neighbours m node.1 node.2
        let stack1 := if h ≠ 0 then node :: rest else rest
        carve_dirs m node (rnd k) stack1 : Option (Maze × List (Int × Int))) with
      | none => .fail
      | some (m1, stack2) => carve_iter_loop rnd (k + 1) fuel m1 stack2

/-- `Maze._carve_path_iter`: mark the start node visited, then loop. -/
def carve_path_iter (rnd : Nat → List Direction) (fuel : Nat) (m : Maze)
    (node : Int × Int) : CarveRes :=
  match (do
    let i ← get_cell_index m node.1 node.2
    pySet m.visited i true : Option (List Bool)) with
  | none => .fail
  | some v => carve_iter_loop rnd 0 fuel { m with visited := v } [node]

/-- The field initialisation part of `Maze.__init__` (before
`self._carve_paths()` runs). -/
def initMaze (nRows nCols : Int) (startPos : Int × Int)
    (goalPos : Option (Int × Int)) : Maze :=
  { nRows := nRows
    nCols := nCols
    startPos := startPos
    goalPos := goalPos.getD (nRows - 1, nCols - 1)
    horizontalEdges := List.replicate ((nRows - 1) * nCols).toNat false
    verticalEdges := List.replicate ((nCols - 1) * nRows).toNat false
    visited := List.replicate (nRows * nCols).toNat false }

/-- `Maze.__init__` = field initialisation followed by
`self._carve_paths()`, which runs `_carve_path_iter(self._start_pos)`. -/
def create (rnd : Nat → List Direction) (fuel : Nat) (nRows nCols : Int)
    (startPos : Int × Int) (goalPos : Option (Int × Int)) : CarveRes :=
  carve_path_iter rnd fuel (initMaze nRows nCols startPos goalPos) startPos

/-- `Maze.move`. -/
def move (m : Maze) (pos : Int × Int) (d : Direction) :
    Option (Bool × (Int × Int)) := do
  let e ← get_edge_at m pos.1 pos.2 d
  if e = false then
    pure (false, pos)
  else do
    let next ← get_cell_at m pos.1 pos.2 d
    pure (true, next)

/-- A numpy 2-D `int` array: a shape together with its entries. -/
structure NpMat : Type where
  rows : Int
  cols : Int
  data : Int → Int → Int

/-- `np.zeros((rows, cols))`. -/
def npZeros (rows cols : Int) : NpMat := ⟨rows, cols, fun _ _ => 0⟩

/-- A numpy element write `M[i][j] = v` (out-of-range raises). -/
def npSet (M : NpMat) (i j v : Int) : Option NpMat :=
  if 0 ≤ i ∧ i < M.rows ∧ 0 ≤ j ∧ j < M.cols then
    some { M with data := fun a b => if a = i ∧ b = j then v else M.data a b }
  else none

/-- Python `1 * b` for a `bool` `b`. -/
def boolToInt (b : Bool) : Int := if b then 1 else 0

/-- `Maze.make_binary_map`. -/
def make_binary_map (mz : Maze) : Option NpMat :=
  let rows := mz.nRows + (mz.nRows - 1)
  let cols := mz.nCols + (mz.nCols - 1)
  (intRange rows).foldlM (fun ret r =>
    if Int.fmod r 2 = 0 then
      let rIdx := Int.fdiv r 2
      let edgeStartIdx := mz.nCols * rIdx - rIdx
      (intRange mz.nCols).foldlM (fun ret2 cIdx => do
        let ret3 ← (if cIdx > 0 then do
            let v ← pyGet mz.verticalEdges (edgeStartIdx + cIdx - 1)
            npSet ret2 r (2 * cIdx - 1) (1 * boolToInt v)
          else pure ret2)
        npSet ret3 (2 * rIdx) (2 * cIdx) 1) ret
    else
      let rIdx := Int.fdiv (r + 1) 2
      if rIdx > 0 then
        (intRange mz.nCols).foldlM (fun ret2 cIdx => do
          let edgeStartIdx := mz.nCols * (rIdx - 1)
          let v ← pyGet mz.horizontalEdges (edgeStartIdx + cIdx)
          npSet ret2 r (2 * cIdx) (1 * boolToInt v)) ret
      else pure ret) (npZeros rows cols)

/-- `Maze.__repr__`, producing the list of characters of the returned
string. -/
def reprChars (m : Maze) : Option (List Char) := do
  let ret : List Char :=
    ['+'] ++ List.replicate (m.nCols * 2 - 1).toNat '-' ++ ['+', '\n']
  let ret1 ← (intRange m.nRows).foldlM (fun acc rIdx => do
    let acc1 ← (if rIdx > 0 then do
        let acc1 := acc ++ ['|']
        let edgeStartIdx := m.nCols * (rIdx - 1)
        let acc2 ← (intRange m.nCols).foldlM (fun a2 eIdx => do
          let b ← pyGet m.horizontalEdges (edgeStartIdx + eIdx)
          let a3 := a2 ++ [if b then ' ' else '-']
          pure (if eIdx < m.nCols - 1 then a3 ++ ['+'] else a3)) acc1
        pure (acc2 ++ ['|', '\n'])
      else pure acc)
    let acc2 := acc1 ++ ['|']
    let edgeStartIdx := m.nCols * rIdx - rIdx
    let acc3 ← (intRange m.nCols).foldlM (fun a2 cIdx => do
      let a3 ← (if cIdx > 0 then do
          let b ← pyGet m.verticalEdges (edgeStartIdx + cIdx - 1)
          pure (a2 ++ [if b then ' ' else '|'])
        else pure a2)
      if m.startPos = (rIdx, cIdx) then
        pure (a3 ++ ['S'])
      else if m.goalPos = (rIdx, cIdx) then
        pure (a3 ++ ['G'])
      else
        pure (a3 ++ [' '])) acc2
    pure (acc3 ++ ['|', '\n'])) ret
  pure (ret1 ++ ['+'] ++ List.replicate (m.nCols * 2 - 1).toNat '-' ++ ['+'])

/-! ## Predicates used in the statements -/

/-- A cell `(row, col)` lies inside the grid. -/
def inBounds (m : Maze) (p : Int × Int) : Prop :=
  0 ≤ p.1 ∧ p.1 < m.nRows ∧ 0 ≤ p.2 ∧ p.2 < m.nCols

instance (m : Maze) (p : Int × Int) : Decidable (inBounds m p) := by
  unfold inBounds; infer_instance

/-- The edge arrays and the visited array have the lengths allocated by
`Maze.__init__`. -/
def WF (m : Maze) : Prop :=
  m.horizontalEdges.length = ((m.nRows - 1) * m.nCols).toNat ∧
  m.verticalEdges.length = ((m.nCols - 1) * m.nRows).toNat ∧
  m.visited.length = (m.nRows * m.nCols).toNat

instance (m : Maze) : Decidable (WF m) := by
  unfold WF; infer_instance

/-- The cell `p` is marked visited (`self._visited[row * n_cols + col]`). -/
def visAt (m : Maze) (p : Int × Int) : Prop :=
  pyGet m.visited (p.1 * m.nCols + p.2) = some true

instance (m : Maze) (p : Int × Int) : Decidable (visAt m p) := by
  unfold visAt; infer_instance

/-- The horizontal edge between cells `(r, c)` and `(r+1, c)` is a passage:
slot `n_cols * r + c` of `self._horizontal_edges` (the south-edge formula). -/
def passageSouth (m : Maze) (r c : Int) : Prop :=
  pyGet m.horizontalEdges (m.nCols * r + c) = some true

instance (m : Maze) (r c : Int) : Decidable (passageSouth m r c) := by
  unfold passageSouth; infer_instance

/-- The vertical edge between cells `(r, c)` and `(r, c+1)` is a passage:
slot `n_cols * r - r + c` of `self._vertical_edges` (the east-edge formula). -/
def passageEast (m : Maze) (r c : Int) : Prop :=
  pyGet m.verticalEdges (m.nCols * r - r + c) = some true

instance (m : Maze) (r c : Int) : Decidable (passageEast m r c) := by
  unfold passageEast; infer_instance

/-- Two grid cells are 4-neighbour adjacent. -/
def adjacent (p q : Int × Int) : Prop :=
  (q.1 = p.1 + 1 ∧ q.2 = p.2) ∨ (p.1 = q.1 + 1 ∧ p.2 = q.2) ∨
  (q.2 = p.2 + 1 ∧ q.1 = p.1) ∨ (p.2 = q.2 + 1 ∧ p.1 = q.1)

/-- One movement step between two in-bounds cells across a passage. -/
def stepRel (m : Maze) (p q : Int × Int) : Prop :=
  inBounds m p ∧ inBounds m q ∧
  ((q.1 = p.1 + 1 ∧ q.2 = p.2 ∧ passageSouth m p.1 p.2) ∨
   (p.1 = q.1 + 1 ∧ p.2 = q.2 ∧ passageSouth m q.1 q.2) ∨
   (q.2 = p.2 + 1 ∧ q.1 = p.1 ∧ passageEast m p.1 p.2) ∨
   (p.2 = q.2 + 1 ∧ p.1 = q.1 ∧ passageEast m q.1 q.2))

/-- Reachability through passages. -/
def Reach (m : Maze) (p q : Int × Int) : Prop :=
  Relation.ReflTransGen (stepRel m) p q

/-! ## Concrete runs used as witnesses and counterexamples -/

/-- A constant shuffle stream: the identity permutation of the four
directions each iteration. -/
def rndA : Nat → List Direction := fun _ => [.NORTH, .SOUTH, .EAST, .WEST]

/-- A shuffle stream that, on a 3×2 grid, drives the carver into the
buggy `row < n_cols` assert of `_get_west_edge_idx`. -/
def rndC2 : Nat → List Direction := fun _ => [.SOUTH, .WEST, .NORTH, .EAST]

/-- A shuffle stream that, on a 3×2 grid, drives the carver into the
buggy `row < n_cols` assert of `_get_east_edge_idx`. -/
def rndC9 : Nat → List Direction := fun _ => [.EAST, .SOUTH, .NORTH, .WEST]

/-- The maze produced by `Maze(2, 2)` under the shuffle stream `rndA`. -/
def mazeA : Maze :=
  match create rndA 10 2 2 (0, 0) none with
  | .ok m => m
  | _ => initMaze 0 0 (0, 0) none

/-- The maze produced by `Maze(2, 2, (0,0), (5,5))` (out-of-bounds goal)
under the shuffle stream `rndA`. -/
def mazeGoalOOB : Maze :=
  match create rndA 20 2 2 (0, 0) (some (5, 5)) with
  | .ok m => m
  | _ => initMaze 0 0 (0, 0) none

/-- An uncarved 2×3 maze record (only its dimensions matter). -/
def mazeB : Maze := initMaze 2 3 (0, 0) none

/-- An uncarved 3×2 maze record (only its dimensions matter). -/
def maze32 : Maze := initMaze 3 2 (0, 0) none

/-! ## Basic lemmas about the Python list model -/

theorem pyGet_nonneg {α : Type} (l : List α) (i : Int) (h : 0 ≤ i) :
    pyGet l i = l[i.toNat]? := by
  simp [pyGet, h]

theorem pyGet_lt_length {α : Type} {l : List α} {i : Int} {a : α}
    (h0 : 0 ≤ i) (h : pyGet l i = some a) : i < l.length := by
  rw [pyGet_nonneg l i h0] at h
  have hlt : i.toNat < l.length := (List.getElem?_eq_some.mp h).1
  omega

theorem pyGet_of_lt {α : Type} {l : List α} {i : Int} (h0 : 0 ≤ i)
    (h : i < l.length) : ∃ b, pyGet l i = some b := by
  rw [pyGet_nonneg _ _ h0,
    List.getElem?_eq_getElem (show i.toNat < l.length by omega)]
  exact ⟨_, rfl⟩

theorem pyGet_some_get {α : Type} {l : List α} {i : Int} {a : α} (h0 : 0 ≤ i)
    (h : pyGet l i = some a) : ∃ hlt : i.toNat < l.length, l[i.toNat] = a := by
  rw [pyGet_nonneg _ _ h0] at h
  exact List.getElem?_eq_some.mp h

theorem pySet_some_nonneg {α : Type} {l l' : List α} {i : Int} {v : α}
    (h0 : 0 ≤ i) (h : pySet l i v = some l') :
    i < l.length ∧ l' = l.set i.toNat v := by
  simp only [pySet, if_pos h0] at h
  split at h
  · refine ⟨by omega, ?_⟩
    exact (Option.some.inj h).symm
  · simp at h

theorem pyGet_set_nonneg {α : Type} (l : List α) {j : Int} (hj0 : 0 ≤ j)
    (hj : j < l.length) (v : α) (i : Int) (hi0 : 0 ≤ i) :
    pyGet (l.set j.toNat v) i = if i = j then some v else pyGet l i := by
  rw [pyGet_nonneg _ _ hi0, pyGet_nonneg _ _ hi0, List.getElem?_set]
  by_cases h : i = j
  · subst h
    simp [show i.toNat < l.length by omega]
  · have hne : j.toNat ≠ i.toNat := by omega
    rw [if_neg hne, if_neg h]

theorem pyGet_replicate_false (n : Nat) (i : Int) :
    pyGet (List.replicate n false) i ≠ some true := by
  unfold pyGet
  split
  · simp [List.getElem?_replicate]
  · split
    · simp [List.getElem?_replicate]
    · simp

theorem count_true_set {l : List Bool} {i : Nat} (h : i < l.length)
    (hf : l[i] = false) :
    (l.set i true).count true = l.count true + 1 := by
  rw [List.count_set true true l i h]
  simp [hf]

theorem flat_inj {R C r c r' c' : Int} (h2 : r < R)
    (h3 : 0 ≤ c) (h4 : c < C) (h6 : r' < R)
    (h7 : 0 ≤ c') (h8 : c' < C) (heq : r * C + c = r' * C + c') :
    r = r' ∧ c = c' := by
  have main : r = r' := by
    rcases lt_trichotomy r r' with hlt | he | hgt
    · exfalso
      have hs : (r + 1) * C ≤ r' * C :=
        mul_le_mul_of_nonneg_right (by omega) (by omega)
      have he2 : (r + 1) * C = r * C + C := by ring
      linarith
    · exact he
    · exfalso
      have hs : (r' + 1) * C ≤ r * C :=
        mul_le_mul_of_nonneg_right (by omega) (by omega)
      have he2 : (r' + 1) * C = r' * C + C := by ring
      linarith
  subst main
  exact ⟨rfl, by linarith⟩

theorem flat_range {R C r c : Int} (h1 : 0 ≤ r) (h2 : r < R)
    (h3 : 0 ≤ c) (h4 : c < C) :
    0 ≤ r * C + c ∧ r * C + c < R * C := by
  constructor
  · have hnn := mul_nonneg h1 (show (0:Int) ≤ C by omega)
    linarith
  · have hs : (r + 1) * C ≤ R * C :=
      mul_le_mul_of_nonneg_right (by omega) (by omega)
    have he2 : (r + 1) * C = r * C + C := by ring
    linarith

theorem slot_range {R C r c : Int} (h1 : 0 ≤ r) (h2 : r < R)
    (h3 : 0 ≤ c) (h4 : c < C) :
    0 ≤ C * r + c ∧ C * r + c < R * C := by
  constructor
  · have hnn := mul_nonneg (show (0:Int) ≤ C by omega) h1
    linarith
  · have hs : C * (r + 1) ≤ C * R :=
      mul_le_mul_of_nonneg_left (by omega) (by omega)
    have e1 : C * (r + 1) = C * r + C := by ring
    have e2 : C * R = R * C := mul_comm _ _
    linarith

theorem slot_inj {R C r c r' c' : Int} (h2 : r < R) (h3 : 0 ≤ c)
    (h4 : c < C) (h6 : r' < R) (h7 : 0 ≤ c') (h8 : c' < C)
    (heq : C * r + c = C * r' + c') : r = r' ∧ c = c' := by
  apply flat_inj h2 h3 h4 h6 h7 h8
  have e1 : r * C = C * r := mul_comm _ _
  have e2 : r' * C = C * r' := mul_comm _ _
  linarith

theorem eslot_range {R C r c : Int} (h1 : 0 ≤ r) (h2 : r < R)
    (h3 : 0 ≤ c) (h4 : c < C - 1) :
    0 ≤ C * r - r + c ∧ C * r - r + c < (C - 1) * R := by
  have e0 : C * r - r + c = (C - 1) * r + c := by ring
  constructor
  · have hnn := mul_nonneg (show (0:Int) ≤ C - 1 by omega) h1
    linarith
  · have hs : (C - 1) * (r + 1) ≤ (C - 1) * R :=
      mul_le_mul_of_nonneg_left (by omega) (by omega)
    have e1 : (C - 1) * (r + 1) = (C - 1) * r + (C - 1) := by ring
    linarith

theorem eslot_inj {R C r c r' c' : Int} (h2 : r < R) (h3 : 0 ≤ c)
    (h4 : c < C - 1) (h6 : r' < R) (h7 : 0 ≤ c') (h8 : c' < C - 1)
    (heq : C * r - r + c = C * r' - r' + c') : r = r' ∧ c = c' := by
  apply flat_inj (C := C - 1) h2 h3 (by omega) h6 h7 (by omega)
  have e1 : r * (C - 1) = C * r - r := by ring
  have e2 : r' * (C - 1) = C * r' - r' := by ring
  linarith

theorem inBounds_dims {m m1 : Maze} (h1 : m1.nRows = m.nRows)
    (h2 : m1.nCols = m.nCols) (p : Int × Int) :
    inBounds m1 p ↔ inBounds m p := by
  simp [inBounds, h1, h2]

/-- Marking cell `next` visited: the visited predicate gains exactly the
cell `next` (over in-bounds cells). -/
theorem visAt_set {m : Maze} {next : Int × Int} {v : List Bool} (hwf : WF m)
    (hnext : inBounds m next)
    (hv : v = m.visited.set (next.1 * m.nCols + next.2).toNat true) :
    ∀ p, inBounds m p →
      (pyGet v (p.1 * m.nCols + p.2) = some true ↔ (p = next ∨ visAt m p)) := by
  intro p hp
  obtain ⟨hn1, hn2, hn3, hn4⟩ := hnext
  obtain ⟨hp1, hp2, hp3, hp4⟩ := hp
  obtain ⟨hj0, hjlt⟩ := flat_range hn1 hn2 hn3 hn4
  obtain ⟨hi0, hilt⟩ := flat_range hp1 hp2 hp3 hp4
  have hjlen : next.1 * m.nCols + next.2 < m.visited.length := by
    rw [hwf.2.2]
    set u := m.nRows * m.nCols with hu
    omega
  subst hv
  rw [pyGet_set_nonneg m.visited hj0 hjlen true _ hi0]
  by_cases heq : p.1 * m.nCols + p.2 = next.1 * m.nCols + next.2
  · rw [if_pos heq]
    obtain ⟨e1, e2⟩ := flat_inj hp2 hp3 hp4 hn2 hn3 hn4 heq
    have hpn : p = next := Prod.ext e1 e2
    simp [hpn]
  · rw [if_neg heq]
    constructor
    · intro hv'
      exact Or.inr hv'
    · rintro (hpn | hv')
      · exact absurd (by rw [hpn]) heq
      · exact hv'

/-- Setting the horizontal slot of the south pair `(a, b)`–`(a+1, b)`:
the south-passage predicate gains exactly that pair. -/
theorem passageSouth_after {m : Maze} {a b : Int} {l : List Bool}
    (hwf : WF m) (ha1 : 0 ≤ a) (ha2 : a + 1 < m.nRows) (hb1 : 0 ≤ b)
    (hb2 : b < m.nCols)
    (hl : l = m.horizontalEdges.set (m.nCols * a + b).toNat true) :
    ∀ x y, 0 ≤ x → x + 1 < m.nRows → 0 ≤ y → y < m.nCols →
      (pyGet l (m.nCols * x + y) = some true ↔
        ((x = a ∧ y = b) ∨ passageSouth m x y)) := by
  intro x y hx1 hx2 hy1 hy2
  obtain ⟨ha0, halt⟩ := slot_range (R := m.nRows - 1) ha1 (by omega) hb1 hb2
  obtain ⟨hx0, hxlt⟩ := slot_range (R := m.nRows - 1) hx1 (by omega) hy1 hy2
  have hlen : m.nCols * a + b < m.horizontalEdges.length := by
    rw [hwf.1]
    set u := (m.nRows - 1) * m.nCols with hu
    omega
  subst hl
  rw [pyGet_set_nonneg m.horizontalEdges ha0 hlen true _ hx0]
  by_cases heq : m.nCols * x + y = m.nCols * a + b
  · rw [if_pos heq]
    obtain ⟨e1, e2⟩ :=
      slot_inj (R := m.nRows - 1) (by omega) hy1 hy2 (by omega) hb1 hb2 heq
    simp [e1, e2]
  · rw [if_neg heq]
    constructor
    · exact fun hv' => Or.inr hv'
    · rintro (⟨e1, e2⟩ | hv')
      · exact absurd (by rw [e1, e2]) heq
      · exact hv'

/-- Setting the vertical slot of the east pair `(a, b)`–`(a, b+1)`:
the east-passage predicate gains exactly that pair. -/
theorem passageEast_after {m : Maze} {a b : Int} {l : List Bool}
    (hwf : WF m) (ha1 : 0 ≤ a) (ha2 : a < m.nRows) (hb1 : 0 ≤ b)
    (hb2 : b + 1 < m.nCols)
    (hl : l = m.verticalEdges.set (m.nCols * a - a + b).toNat true) :
    ∀ x y, 0 ≤ x → x < m.nRows → 0 ≤ y → y + 1 < m.nCols →
      (pyGet l (m.nCols * x - x + y) = some true ↔
        ((x = a ∧ y = b) ∨ passageEast m x y)) := by
  intro x y hx1 hx2 hy1 hy2
  obtain ⟨ha0, halt⟩ :=
    eslot_range (R := m.nRows) (C := m.nCols) ha1 ha2 hb1 (by omega)
  obtain ⟨hx0, hxlt⟩ :=
    eslot_range (R := m.nRows) (C := m.nCols) hx1 hx2 hy1 (by omega)
  have hlen : m.nCols * a - a + b < m.verticalEdges.length := by
    rw [hwf.2.1]
    set u := (m.nCols - 1) * m.nRows with hu
    omega
  subst hl
  rw [pyGet_set_nonneg m.verticalEdges ha0 hlen true _ hx0]
  by_cases heq : m.nCols * x - x + y = m.nCols * a - a + b
  · rw [if_pos heq]
    obtain ⟨e1, e2⟩ := eslot_inj hx2 hy1 (by omega) ha2 hb1 (by omega) heq
    simp [e1, e2]
  · rw [if_neg heq]
    constructor
    · exact fun hv' => Or.inr hv'
    · rintro (⟨e1, e2⟩ | hv')
      · exact absurd (by rw [e1, e2]) heq
      · exact hv'

/-- Carving the south pair `(a, b)`–`(a+1, b)`: the step relation gains
exactly the two directed versions of that pair. -/
theorem stepRel_after_south {m n : Maze} {a b : Int} (hwf : WF m)
    (ha1 : 0 ≤ a) (ha2 : a + 1 < m.nRows) (hb1 : 0 ≤ b) (hb2 : b < m.nCols)
    (h1 : n.nRows = m.nRows) (h2 : n.nCols = m.nCols)
    (h3 : n.horizontalEdges =
      m.horizontalEdges.set (m.nCols * a + b).toNat true)
    (h4 : n.verticalEdges = m.verticalEdges) :
    ∀ p q, stepRel n p q ↔
      (stepRel m p q ∨ (p = (a, b) ∧ q = (a + 1, b)) ∨
        (p = (a + 1, b) ∧ q = (a, b))) := by
  have hPS := passageSouth_after hwf ha1 ha2 hb1 hb2 h3
  intro p q
  constructor
  · rintro ⟨hp, hq, hcase⟩
    rw [inBounds_dims h1 h2] at hp hq
    obtain ⟨hp1, hp2, hp3, hp4⟩ := hp
    obtain ⟨hq1, hq2, hq3, hq4⟩ := hq
    rcases hcase with ⟨e1, e2, hpass⟩ | ⟨e1, e2, hpass⟩ |
      ⟨e1, e2, hpass⟩ | ⟨e1, e2, hpass⟩
    · have hpass' : pyGet n.horizontalEdges (m.nCols * p.1 + p.2) =
          some true := by
        simpa [passageSouth, h2] using hpass
      rcases (hPS p.1 p.2 hp1 (by omega) hp3 hp4).mp hpass' with ⟨ea, eb⟩ | hold
      · right; left
        exact ⟨Prod.ext ea eb, Prod.ext (by omega) (by omega)⟩
      · exact Or.inl ⟨⟨hp1, hp2, hp3, hp4⟩, ⟨hq1, hq2, hq3, hq4⟩,
          Or.inl ⟨e1, e2, hold⟩⟩
    · have hpass' : pyGet n.horizontalEdges (m.nCols * q.1 + q.2) =
          some true := by
        simpa [passageSouth, h2] using hpass
      rcases (hPS q.1 q.2 hq1 (by omega) hq3 hq4).mp hpass' with ⟨ea, eb⟩ | hold
      · right; right
        exact ⟨Prod.ext (by omega) (by omega), Prod.ext ea eb⟩
      · exact Or.inl ⟨⟨hp1, hp2, hp3, hp4⟩, ⟨hq1, hq2, hq3, hq4⟩,
          Or.inr (Or.inl ⟨e1, e2, hold⟩)⟩
    · have hpass' : passageEast m p.1 p.2 := by
        simpa [passageEast, h2, h4] using hpass
      exact Or.inl ⟨⟨hp1, hp2, hp3, hp4⟩, ⟨hq1, hq2, hq3, hq4⟩,
        Or.inr (Or.inr (Or.inl ⟨e1, e2, hpass'⟩))⟩
    · have hpass' : passageEast m q.1 q.2 := by
        simpa [passageEast, h2, h4] using hpass
      exact Or.inl ⟨⟨hp1, hp2, hp3, hp4⟩, ⟨hq1, hq2, hq3, hq4⟩,
        Or.inr (Or.inr (Or.inr ⟨e1, e2, hpass'⟩))⟩
  · rintro (⟨hp, hq, hcase⟩ | ⟨ep, eq'⟩ | ⟨ep, eq'⟩)
    · refine ⟨(inBounds_dims h1 h2 p).mpr hp, (inBounds_dims h1 h2 q).mpr hq, ?_⟩
      obtain ⟨hp1, hp2, hp3, hp4⟩ := hp
      obtain ⟨hq1, hq2, hq3, hq4⟩ := hq
      rcases hcase with ⟨e1, e2, hpass⟩ | ⟨e1, e2, hpass⟩ |
        ⟨e1, e2, hpass⟩ | ⟨e1, e2, hpass⟩
      · refine Or.inl ⟨e1, e2, ?_⟩
        show pyGet n.horizontalEdges (n.nCols * p.1 + p.2) = some true
        rw [h2]
        exact (hPS p.1 p.2 hp1 (by omega) hp3 hp4).mpr (Or.inr hpass)
      · refine Or.inr (Or.inl ⟨e1, e2, ?_⟩)
        show pyGet n.horizontalEdges (n.nCols * q.1 + q.2) = some true
        rw [h2]
        exact (hPS q.1 q.2 hq1 (by omega) hq3 hq4).mpr (Or.inr hpass)
      · refine Or.inr (Or.inr (Or.inl ⟨e1, e2, ?_⟩))
        show pyGet n.verticalEdges (n.nCols * p.1 - p.1 + p.2) = some true
        rw [h2, h4]
        exact hpass
      · refine Or.inr (Or.inr (Or.inr ⟨e1, e2, ?_⟩))
        show pyGet n.verticalEdges (n.nCols * q.1 - q.1 + q.2) = some true
        rw [h2, h4]
        exact hpass
    · subst ep; subst eq'
      refine ⟨(inBounds_dims h1 h2 _).mpr ⟨ha1, by omega, hb1, hb2⟩,
        (inBounds_dims h1 h2 _).mpr ⟨by omega, by omega, hb1, hb2⟩, ?_⟩
      refine Or.inl ⟨rfl, rfl, ?_⟩
      show pyGet n.horizontalEdges (n.nCols * a + b) = some true
      rw [h2]
      exact (hPS a b ha1 ha2 hb1 hb2).mpr (Or.inl ⟨rfl, rfl⟩)
    · subst ep; subst eq'
      refine ⟨(inBounds_dims h1 h2 _).mpr ⟨by omega, by omega, hb1, hb2⟩,
        (inBounds_dims h1 h2 _).mpr ⟨ha1, by omega, hb1, hb2⟩, ?_⟩
      refine Or.inr (Or.inl ⟨rfl, rfl, ?_⟩)
      show pyGet n.horizontalEdges (n.nCols * a + b) = some true
      rw [h2]
      exact (hPS a b ha1 ha2 hb1 hb2).mpr (Or.inl ⟨rfl, rfl⟩)

/-- Carving the east pair `(a, b)`–`(a, b+1)`: the step relation gains
exactly the two directed versions of that pair. -/
theorem stepRel_after_east {m n : Maze} {a b : Int} (hwf : WF m)
    (ha1 : 0 ≤ a) (ha2 : a < m.nRows) (hb1 : 0 ≤ b) (hb2 : b + 1 < m.nCols)
    (h1 : n.nRows = m.nRows) (h2 : n.nCols = m.nCols)
    (h3 : n.verticalEdges =
      m.verticalEdges.set (m.nCols * a - a + b).toNat true)
    (h4 : n.horizontalEdges = m.horizontalEdges) :
    ∀ p q, stepRel n p q ↔
      (stepRel m p q ∨ (p = (a, b) ∧ q = (a, b + 1)) ∨
        (p = (a, b + 1) ∧ q = (a, b))) := by
  have hPE := passageEast_after hwf ha1 ha2 hb1 hb2 h3
  intro p q
  constructor
  · rintro ⟨hp, hq, hcase⟩
    rw [inBounds_dims h1 h2] at hp hq
    obtain ⟨hp1, hp2, hp3, hp4⟩ := hp
    obtain ⟨hq1, hq2, hq3, hq4⟩ := hq
    rcases hcase with ⟨e1, e2, hpass⟩ | ⟨e1, e2, hpass⟩ |
      ⟨e1, e2, hpass⟩ | ⟨e1, e2, hpass⟩
    · have hpass' : passageSouth m p.1 p.2 := by
        simpa [passageSouth, h2, h4] using hpass
      exact Or.inl ⟨⟨hp1, hp2, hp3, hp4⟩, ⟨hq1, hq2, hq3, hq4⟩,
        Or.inl ⟨e1, e2, hpass'⟩⟩
    · have hpass' : passageSouth m q.1 q.2 := by
        simpa [passageSouth, h2, h4] using hpass
      exact Or.inl ⟨⟨hp1, hp2, hp3, hp4⟩, ⟨hq1, hq2, hq3, hq4⟩,
        Or.inr (Or.inl ⟨e1, e2, hpass'⟩)⟩
    · have hpass' : pyGet n.verticalEdges (m.nCols * p.1 - p.1 + p.2) =
          some true := by
        simpa [passageEast, h2] using hpass
      rcases (hPE p.1 p.2 hp1 hp2 hp3 (by omega)).mp hpass' with ⟨ea, eb⟩ | hold
      · right; left
        exact ⟨Prod.ext ea eb, Prod.ext (by omega) (by omega)⟩
      · exact Or.inl ⟨⟨hp1, hp2, hp3, hp4⟩, ⟨hq1, hq2, hq3, hq4⟩,
          Or.inr (Or.inr (Or.inl ⟨e1, e2, hold⟩))⟩
    · have hpass' : pyGet n.verticalEdges (m.nCols * q.1 - q.1 + q.2) =
          some true := by
        simpa [passageEast, h2] using hpass
      rcases (hPE q.1 q.2 hq1 hq2 hq3 (by omega)).mp hpass' with ⟨ea, eb⟩ | hold
      · right; right
        exact ⟨Prod.ext (by omega) (by omega), Prod.ext ea eb⟩
      · exact Or.inl ⟨⟨hp1, hp2, hp3, hp4⟩, ⟨hq1, hq2, hq3, hq4⟩,
          Or.inr (Or.inr (Or.inr ⟨e1, e2, hold⟩))⟩
  · rintro (⟨hp, hq, hcase⟩ | ⟨ep, eq'⟩ | ⟨ep, eq'⟩)
    · refine ⟨(inBounds_dims h1 h2 p).mpr hp, (inBounds_dims h1 h2 q).mpr hq, ?_⟩
      obtain ⟨hp1, hp2, hp3, hp4⟩ := hp
      obtain ⟨hq1, hq2, hq3, hq4⟩ := hq
      rcases hcase with ⟨e1, e2, hpass⟩ | ⟨e1, e2, hpass⟩ |
        ⟨e1, e2, hpass⟩ | ⟨e1, e2, hpass⟩
      · refine Or.inl ⟨e1, e2, ?_⟩
        show pyGet n.horizontalEdges (n.nCols * p.1 + p.2) = some true
        rw [h2, h4]
        exact hpass
      · refine Or.inr (Or.inl ⟨e1, e2, ?_⟩)
        show pyGet n.horizontalEdges (n.nCols * q.1 + q.2) = some true
        rw [h2, h4]
        exact hpass
      · refine Or.inr (Or.inr (Or.inl ⟨e1, e2, ?_⟩))
        show pyGet n.verticalEdges (n.nCols * p.1 - p.1 + p.2) = some true
        rw [h2]
        exact (hPE p.1 p.2 hp1 hp2 hp3 (by omega)).mpr (Or.inr hpass)
      · refine Or.inr (Or.inr (Or.inr ⟨e1, e2, ?_⟩))
        show pyGet n.verticalEdges (n.nCols * q.1 - q.1 + q.2) = some true
        rw [h2]
        exact (hPE q.1 q.2 hq1 hq2 hq3 (by omega)).mpr (Or.inr hpass)
    · subst ep; subst eq'
      refine ⟨(inBounds_dims h1 h2 _).mpr ⟨ha1, ha2, hb1, by omega⟩,
        (inBounds_dims h1 h2 _).mpr ⟨ha1, ha2, by omega, by omega⟩, ?_⟩
      refine Or.inr (Or.inr (Or.inl ⟨rfl, rfl, ?_⟩))
      show pyGet n.verticalEdges (n.nCols * a - a + b) = some true
      rw [h2]
      exact (hPE a b ha1 ha2 hb1 hb2).mpr (Or.inl ⟨rfl, rfl⟩)
    · subst ep; subst eq'
      refine ⟨(inBounds_dims h1 h2 _).mpr ⟨ha1, ha2, by omega, by omega⟩,
        (inBounds_dims h1 h2 _).mpr ⟨ha1, ha2, hb1, by omega⟩, ?_⟩
      refine Or.inr (Or.inr (Or.inr ⟨rfl, rfl, ?_⟩))
      show pyGet n.verticalEdges (n.nCols * a - a + b) = some true
      rw [h2]
      exact (hPE a b ha1 ha2 hb1 hb2).mpr (Or.inl ⟨rfl, rfl⟩)

/-! ## The carving invariant -/

/-- Invariant of the carving loop, relating the maze state to the stack. -/
structure Inv (start : Int × Int) (m : Maze) (stack : List (Int × Int)) :
    Prop where
  wf : WF m
  start_in : inBounds m start
  start_vis : visAt m start
  stack_mem : ∀ p ∈ stack, inBounds m p ∧ visAt m p
  frontier : ∀ p q, inBounds m p → visAt m p → inBounds m q → adjacent p q →
    ¬ visAt m q → p ∈ stack
  reach : ∀ p, inBounds m p → visAt m p → Reach m start p
  count_eq : m.horizontalEdges.count true + m.verticalEdges.count true + 1 =
    m.visited.count true
  step_vis : ∀ p q, stepRel m p q → visAt m p ∧ visAt m q

/-- One carve action (carve the edge from `node` to the unvisited in-bounds
neighbour `next`, mark `next` visited, push `next`) preserves the
invariant, abstracted over how the edge arrays changed. -/
theorem carve_common {start node next : Int × Int} {m m2 : Maze}
    {stack : List (Int × Int)}
    (inv : Inv start m stack) (hnode : inBounds m node) (hnvis : visAt m node)
    (hnext : inBounds m next) (hnnv : ¬ visAt m next)
    (hdR : m2.nRows = m.nRows) (hdC : m2.nCols = m.nCols)
    (hstep : ∀ p q, stepRel m2 p q ↔
      (stepRel m p q ∨ (p = node ∧ q = next) ∨ (p = next ∧ q = node)))
    (hvis : ∀ p, inBounds m p → (visAt m2 p ↔ (p = next ∨ visAt m p)))
    (hwf2 : WF m2)
    (hcount : m2.horizontalEdges.count true + m2.verticalEdges.count true =
      m.horizontalEdges.count true + m.verticalEdges.count true + 1)
    (hvcount : m2.visited.count true = m.visited.count true + 1) :
    Inv start m2 (next :: stack) := by
  have hmono : ∀ x y, stepRel m x y → stepRel m2 x y := fun x y h =>
    (hstep x y).mpr (Or.inl h)
  have hReachMono : ∀ x y, Reach m x y → Reach m2 x y := fun x y h =>
    Relation.ReflTransGen.mono hmono h
  refine ⟨hwf2, (inBounds_dims hdR hdC start).mpr inv.start_in,
    (hvis start inv.start_in).mpr (Or.inr inv.start_vis), ?_, ?_, ?_, ?_, ?_⟩
  · intro p hp
    rcases List.mem_cons.mp hp with hpe | hps
    · subst hpe
      exact ⟨(inBounds_dims hdR hdC p).mpr hnext,
        (hvis p hnext).mpr (Or.inl rfl)⟩
    · obtain ⟨hin, hv⟩ := inv.stack_mem p hps
      exact ⟨(inBounds_dims hdR hdC p).mpr hin, (hvis p hin).mpr (Or.inr hv)⟩
  · intro p q hp2 hvp2 hq2 hadj' hnq2
    have hp := (inBounds_dims hdR hdC p).mp hp2
    have hq := (inBounds_dims hdR hdC q).mp hq2
    rcases (hvis p hp).mp hvp2 with hpe | hvp
    · subst hpe
      exact List.mem_cons_self _ _
    · have hnq : ¬ visAt m q := fun hv => hnq2 ((hvis q hq).mpr (Or.inr hv))
      exact List.mem_cons_of_mem _ (inv.frontier p q hp hvp hq hadj' hnq)
  · intro p hp2 hvp2
    have hp := (inBounds_dims hdR hdC p).mp hp2
    rcases (hvis p hp).mp hvp2 with hpe | hvp
    · subst hpe
      have hrn : Reach m2 start node :=
        hReachMono _ _ (inv.reach node hnode hnvis)
      exact Relation.ReflTransGen.tail hrn
        ((hstep node p).mpr (Or.inr (Or.inl ⟨rfl, rfl⟩)))
    · exact hReachMono _ _ (inv.reach p hp hvp)
  · have := inv.count_eq
    omega
  · intro p q hs2
    rcases (hstep p q).mp hs2 with hold | ⟨ep, eq'⟩ | ⟨ep, eq'⟩
    · obtain ⟨hvp, hvq⟩ := inv.step_vis p q hold
      obtain ⟨hpin, hqin, _⟩ := hold
      exact ⟨(hvis p hpin).mpr (Or.inr hvp), (hvis q hqin).mpr (Or.inr hvq)⟩
    · rw [ep, eq']
      exact ⟨(hvis node hnode).mpr (Or.inr hnvis),
        (hvis next hnext).mpr (Or.inl rfl)⟩
    · rw [ep, eq']
      exact ⟨(hvis next hnext).mpr (Or.inl rfl),
        (hvis node hnode).mpr (Or.inr hnvis)⟩

theorem bind_some_ex {α β : Type} {x : Option α} {f : α → Option β} {b : β}
    (h : (x >>= f) = some b) : ∃ a, x = some a ∧ f a = some b := by
  rw [Option.bind_eq_bind, Option.bind_eq_some] at h
  exact h

theorem pyGet_bounded {l : List Bool} {i bnd : Int} (h0 : 0 ≤ i)
    (hb : i < bnd) (hlen : l.length = bnd.toNat) : ∃ b, pyGet l i = some b := by
  apply pyGet_of_lt h0
  omega

theorem set_edge_at_north {m m1 : Maze} {r c : Int}
    (h : set_edge_at m r c .NORTH true = some m1) :
    0 < r ∧ r < m.nRows ∧ 0 ≤ c ∧ c < m.nCols ∧
    m1 = { m with horizontalEdges :=
      m.horizontalEdges.set (m.nCols * (r - 1) + c).toNat true } := by
  unfold set_edge_at at h
  obtain ⟨idx, hidx, hrest⟩ := bind_some_ex h
  have hrest2 : (do
      let l ← pySet m.horizontalEdges idx true
      pure { m with horizontalEdges := l } : Option Maze) = some m1 := hrest
  obtain ⟨l, hl, hm1⟩ := bind_some_ex hrest2
  have hidx2 : get_north_edge_idx m r c = some idx := hidx
  unfold get_north_edge_idx at hidx2
  split at hidx2
  case isTrue hP =>
    have hidx' := Option.some.inj hidx2
    subst hidx'
    have hidx0 : (0:Int) ≤ m.nCols * (r - 1) + c := by
      have hnn := mul_nonneg (show (0:Int) ≤ m.nCols by omega)
        (show (0:Int) ≤ r - 1 by omega)
      linarith
    obtain ⟨hlt, hleq⟩ := pySet_some_nonneg hidx0 hl
    refine ⟨by omega, by omega, by omega, by omega, ?_⟩
    have hm1' := Option.some.inj hm1
    rw [← hm1', hleq]
  case isFalse => simp at hidx2

theorem set_edge_at_south {m m1 : Maze} {r c : Int}
    (h : set_edge_at m r c .SOUTH true = some m1) :
    0 ≤ r ∧ r < m.nRows - 1 ∧ 0 ≤ c ∧ c < m.nCols ∧
    m1 = { m with horizontalEdges :=
      m.horizontalEdges.set (m.nCols * r + c).toNat true } := by
  unfold set_edge_at at h
  obtain ⟨idx, hidx, hrest⟩ := bind_some_ex h
  have hrest2 : (do
      let l ← pySet m.horizontalEdges idx true
      pure { m with horizontalEdges := l } : Option Maze) = some m1 := hrest
  obtain ⟨l, hl, hm1⟩ := bind_some_ex hrest2
  have hidx2 : get_south_edge_idx m r c = some idx := hidx
  unfold get_south_edge_idx at hidx2
  split at hidx2
  case isTrue hP =>
    have hidx' := Option.some.inj hidx2
    subst hidx'
    have hidx0 : (0:Int) ≤ m.nCols * r + c := by
      have hnn := mul_nonneg (show (0:Int) ≤ m.nCols by omega)
        (show (0:Int) ≤ r by omega)
      linarith
    obtain ⟨hlt, hleq⟩ := pySet_some_nonneg hidx0 hl
    refine ⟨by omega, by omega, by omega, by omega, ?_⟩
    have hm1' := Option.some.inj hm1
    rw [← hm1', hleq]
  case isFalse => simp at hidx2

theorem set_edge_at_east {m m1 : Maze} {r c : Int}
    (h : set_edge_at m r c .EAST true = some m1) :
    0 ≤ r ∧ r < m.nCols ∧ 0 ≤ c ∧ c < m.nCols - 1 ∧
    m1 = { m with verticalEdges :=
      m.verticalEdges.set (m.nCols * r - r + c).toNat true } := by
  unfold set_edge_at at h
  obtain ⟨idx, hidx, hrest⟩ := bind_some_ex h
  have hrest2 : (do
      let l ← pySet m.verticalEdges idx true
      pure { m with verticalEdges := l } : Option Maze) = some m1 := hrest
  obtain ⟨l, hl, hm1⟩ := bind_some_ex hrest2
  have hidx2 : get_east_edge_idx m r c = some idx := hidx
  unfold get_east_edge_idx at hidx2
  split at hidx2
  case isTrue hP =>
    have hidx' := Option.some.inj hidx2
    subst hidx'
    have he : m.nCols * r - r + c = (m.nCols - 1) * r + c := by ring
    have hidx0 : (0:Int) ≤ m.nCols * r - r + c := by
      have hnn := mul_nonneg (show (0:Int) ≤ m.nCols - 1 by omega)
        (show (0:Int) ≤ r by omega)
      linarith
    obtain ⟨hlt, hleq⟩ := pySet_some_nonneg hidx0 hl
    refine ⟨by omega, by omega, by omega, by omega, ?_⟩
    have hm1' := Option.some.inj hm1
    rw [← hm1', hleq]
  case isFalse => simp at hidx2

theorem set_edge_at_west {m m1 : Maze} {r c : Int}
    (h : set_edge_at m r c .WEST true = some m1) :
    0 ≤ r ∧ r < m.nCols ∧ 0 < c ∧ c < m.nCols ∧
    m1 = { m with verticalEdges :=
      m.verticalEdges.set (m.nCols * r - r + (c - 1)).toNat true } := by
  unfold set_edge_at at h
  obtain ⟨idx, hidx, hrest⟩ := bind_some_ex h
  have hrest2 : (do
      let l ← pySet m.verticalEdges idx true
      pure { m with verticalEdges := l } : Option Maze) = some m1 := hrest
  obtain ⟨l, hl, hm1⟩ := bind_some_ex hrest2
  have hidx2 : get_west_edge_idx m r c = some idx := hidx
  unfold get_west_edge_idx at hidx2
  split at hidx2
  case isTrue hP =>
    have hidx' := Option.some.inj hidx2
    subst hidx'
    have he : m.nCols * r - r + (c - 1) = (m.nCols - 1) * r + (c - 1) := by
      ring
    have hidx0 : (0:Int) ≤ m.nCols * r - r + (c - 1) := by
      have hnn := mul_nonneg (show (0:Int) ≤ m.nCols - 1 by omega)
        (show (0:Int) ≤ r by omega)
      linarith
    obtain ⟨hlt, hleq⟩ := pySet_some_nonneg hidx0 hl
    refine ⟨by omega, by omega, by omega, by omega, ?_⟩
    have hm1' := Option.some.inj hm1
    rw [← hm1', hleq]
  case isFalse => simp at hidx2

/-- The pure coordinate arithmetic of `_get_cell_at` (the spec's
`neighbor_cell`), as a named function for use in lemma statements. -/
def dirOffset (r c : Int) : Direction → Int × Int
  | .NORTH => (r - 1, c)
  | .SOUTH => (r + 1, c)
  | .EAST => (r, c + 1)
  | .WEST => (r, c - 1)

theorem get_cell_at_eq {m : Maze} {r c : Int} {d : Direction} {p : Int × Int}
    (h : get_cell_at m r c d = some p) :
    (0 ≤ r ∧ r < m.nRows ∧ 0 ≤ c ∧ c < m.nCols) ∧
    p = dirOffset r c d := by
  cases d <;>
  · unfold get_cell_at at h
    by_cases hP : (r ≥ 0 ∧ r < m.nRows ∧ c ≥ 0 ∧ c < m.nCols)
    · rw [if_pos hP] at h
      refine ⟨by omega, ?_⟩
      rw [← Option.some.inj h]
      rfl
    · rw [if_neg hP] at h
      simp at h

theorem get_cell_index_eq {m : Maze} {r c i : Int}
    (h : get_cell_index m r c = some i) :
    0 ≤ r ∧ r < m.nRows ∧ 0 ≤ c ∧ c < m.nCols ∧ i = r * m.nCols + c := by
  unfold get_cell_index at h
  split at h
  case isTrue hP =>
    refine ⟨by omega, by omega, by omega, by omega, (Option.some.inj h).symm⟩
  case isFalse => simp at h

theorem get_cell_index_pos {m : Maze} {r c : Int} (h1 : 0 ≤ r)
    (h2 : r < m.nRows) (h3 : 0 ≤ c) (h4 : c < m.nCols) :
    get_cell_index m r c = some (r * m.nCols + c) := by
  unfold get_cell_index
  rw [if_pos ⟨h1, h2, h3, h4⟩]

theorem count_after_set_false {l : List Bool} {i : Int} (h0 : 0 ≤ i)
    (hval : pyGet l i = some false) :
    (l.set i.toNat true).count true = l.count true + 1 := by
  obtain ⟨hlt, hget⟩ := pyGet_some_get h0 hval
  exact count_true_set hlt hget

/-- If one endpoint of the south pair `(a, b)`–`(a+1, b)` is unvisited and
every passage joins visited cells, that slot holds `False`. -/
theorem south_slot_false {m : Maze}
    (step_vis : ∀ p q, stepRel m p q → visAt m p ∧ visAt m q) (hwf : WF m)
    {a b : Int} (ha1 : 0 ≤ a) (ha2 : a + 1 < m.nRows) (hb1 : 0 ≤ b)
    (hb2 : b < m.nCols)
    (hun : ¬ visAt m (a, b) ∨ ¬ visAt m (a + 1, b)) :
    pyGet m.horizontalEdges (m.nCols * a + b) = some false := by
  obtain ⟨h0, hlt⟩ := slot_range (R := m.nRows - 1) ha1 (by omega) hb1 hb2
  obtain ⟨bb, hbb⟩ := pyGet_bounded h0 hlt hwf.1
  cases bb
  · exact hbb
  · exfalso
    have hst : stepRel m (a, b) (a + 1, b) :=
      ⟨⟨ha1, by omega, hb1, hb2⟩, ⟨by omega, by omega, hb1, hb2⟩,
        Or.inl ⟨rfl, rfl, hbb⟩⟩
    obtain ⟨hv1, hv2⟩ := step_vis _ _ hst
    rcases hun with h | h
    · exact h hv1
    · exact h hv2

/-- If one endpoint of the east pair `(a, b)`–`(a, b+1)` is unvisited and
every passage joins visited cells, that slot holds `False`. -/
theorem east_slot_false {m : Maze}
    (step_vis : ∀ p q, stepRel m p q → visAt m p ∧ visAt m q) (hwf : WF m)
    {a b : Int} (ha1 : 0 ≤ a) (ha2 : a < m.nRows) (hb1 : 0 ≤ b)
    (hb2 : b + 1 < m.nCols)
    (hun : ¬ visAt m (a, b) ∨ ¬ visAt m (a, b + 1)) :
    pyGet m.verticalEdges (m.nCols * a - a + b) = some false := by
  obtain ⟨h0, hlt⟩ :=
    eslot_range (R := m.nRows) (C := m.nCols) ha1 ha2 hb1 (by omega)
  obtain ⟨bb, hbb⟩ := pyGet_bounded h0 hlt hwf.2.1
  cases bb
  · exact hbb
  · exfalso
    have hst : stepRel m (a, b) (a, b + 1) :=
      ⟨⟨ha1, ha2, hb1, by omega⟩, ⟨ha1, ha2, by omega, by omega⟩,
        Or.inr (Or.inr (Or.inl ⟨rfl, rfl, hbb⟩))⟩
    obtain ⟨hv1, hv2⟩ := step_vis _ _ hst
    rcases hun with h | h
    · exact h hv1
    · exact h hv2

/-- A full carve action of the direction loop (carve the edge toward the
unvisited, in-bounds neighbour `next`, mark it visited, push it)
preserves the invariant. -/
theorem carve_action_inv {start node next : Int × Int} {m m1 : Maze}
    {stack : List (Int × Int)} {d : Direction} {nidx : Int} {v : List Bool}
    (inv : Inv start m stack) (hnode : inBounds m node) (hnvis : visAt m node)
    (hc : get_cell_at m node.1 node.2 d = some next)
    (hnext : inBounds m next)
    (hci : get_cell_index m next.1 next.2 = some nidx)
    (hvv : pyGet m.visited nidx = some false)
    (hs : set_edge_at m node.1 node.2 d true = some m1)
    (hv : pySet m1.visited nidx true = some v) :
    Inv start { m1 with visited := v } (next :: stack) ∧
    m1.nRows = m.nRows ∧ m1.nCols = m.nCols ∧
    (∀ p, inBounds m p → visAt m p → visAt { m1 with visited := v } p) := by
  obtain ⟨_, _, _, _, hnidx⟩ := get_cell_index_eq hci
  subst hnidx
  have hN := hnode
  obtain ⟨hN1, hN2, hN3, hN4⟩ := hN
  have hX := hnext
  obtain ⟨hn1, hn2, hn3, hn4⟩ := hX
  have hnnv : ¬ visAt m next := by
    unfold visAt
    rw [hvv]
    simp
  obtain ⟨hnidx0, hnidxlt⟩ := flat_range hn1 hn2 hn3 hn4
  cases d
  case NORTH =>
    obtain ⟨hb, hcell⟩ := get_cell_at_eq hc
    have hnext_eq : next = (node.1 - 1, node.2) := hcell
    obtain ⟨hr0, hrR, hc0, hcC, hm1⟩ := set_edge_at_north hs
    subst hm1
    have hv' : pySet m.visited (next.1 * m.nCols + next.2) true = some v := hv
    obtain ⟨hvlt, hveq⟩ := pySet_some_nonneg hnidx0 hv'
    have hslot : pyGet m.horizontalEdges (m.nCols * (node.1 - 1) + node.2) = some false := by
      apply south_slot_false inv.step_vis inv.wf (by omega) (by omega)
        (by omega) (by omega)
      left
      rw [← hnext_eq]
      exact hnnv
    obtain ⟨hs0, _⟩ := slot_range (R := m.nRows - 1) (C := m.nCols)
      (r := node.1 - 1) (c := node.2) (by omega) (by omega) (by omega) (by omega)
    have hgeq : ({ { m with horizontalEdges := m.horizontalEdges.set (m.nCols * (node.1 - 1) + node.2).toNat true } with visited := v } : Maze) = { m with horizontalEdges := m.horizontalEdges.set (m.nCols * (node.1 - 1) + node.2).toNat true, visited := v } := rfl
    rw [hgeq]
    refine ⟨carve_common inv hnode hnvis hnext hnnv rfl rfl ?_ ?_ ?_ ?_ ?_,
      rfl, rfl, fun p hp hvp => (visAt_set inv.wf hnext hveq p hp).mpr
        (Or.inr hvp)⟩
    · intro p q
      rw [stepRel_after_south (a := node.1 - 1) (b := node.2)
        (n := { m with horizontalEdges := m.horizontalEdges.set (m.nCols * (node.1 - 1) + node.2).toNat true, visited := v })
        inv.wf (by omega) (by omega) (by omega) (by omega) rfl rfl rfl rfl p q]
      rw [← hnext_eq]
      have hnode_eq : node = (node.1 - 1 + 1, node.2) := by
        refine Prod.ext ?_ ?_
        · show node.1 = node.1 - 1 + 1
          omega
        · rfl
      rw [← hnode_eq]
      tauto
    · intro p hp
      exact visAt_set inv.wf hnext hveq p hp
    · obtain ⟨hw1, hw2, hw3⟩ := inv.wf
      refine ⟨?_, ?_, ?_⟩
      · show (m.horizontalEdges.set (m.nCols * (node.1 - 1) + node.2).toNat true).length = ((m.nRows - 1) * m.nCols).toNat
        rw [List.length_set]
        exact hw1
      · exact hw2
      · show v.length = (m.nRows * m.nCols).toNat
        rw [hveq, List.length_set]
        exact hw3
    · show (m.horizontalEdges.set (m.nCols * (node.1 - 1) + node.2).toNat true).count true + m.verticalEdges.count true = m.horizontalEdges.count true + m.verticalEdges.count true + 1
      rw [count_after_set_false hs0 hslot]
      omega
    · show v.count true = m.visited.count true + 1
      rw [hveq, count_after_set_false hnidx0 hvv]
  case SOUTH =>
    obtain ⟨hb, hcell⟩ := get_cell_at_eq hc
    have hnext_eq : next = (node.1 + 1, node.2) := hcell
    obtain ⟨hr0, hrR, hc0, hcC, hm1⟩ := set_edge_at_south hs
    subst hm1
    have hv' : pySet m.visited (next.1 * m.nCols + next.2) true = some v := hv
    obtain ⟨hvlt, hveq⟩ := pySet_some_nonneg hnidx0 hv'
    have hslot : pyGet m.horizontalEdges (m.nCols * node.1 + node.2) = some false := by
      apply south_slot_false inv.step_vis inv.wf (by omega) (by omega)
        (by omega) (by omega)
      right
      rw [← hnext_eq]
      exact hnnv
    obtain ⟨hs0, _⟩ := slot_range (R := m.nRows - 1) (C := m.nCols)
      (r := node.1) (c := node.2) (by omega) (by omega) (by omega) (by omega)
    have hgeq : ({ { m with horizontalEdges := m.horizontalEdges.set (m.nCols * node.1 + node.2).toNat true } with visited := v } : Maze) = { m with horizontalEdges := m.horizontalEdges.set (m.nCols * node.1 + node.2).toNat true, visited := v } := rfl
    rw [hgeq]
    refine ⟨carve_common inv hnode hnvis hnext hnnv rfl rfl ?_ ?_ ?_ ?_ ?_,
      rfl, rfl, fun p hp hvp => (visAt_set inv.wf hnext hveq p hp).mpr
        (Or.inr hvp)⟩
    · intro p q
      rw [stepRel_after_south (a := node.1) (b := node.2)
        (n := { m with horizontalEdges := m.horizontalEdges.set (m.nCols * node.1 + node.2).toNat true, visited := v })
        inv.wf (by omega) (by omega) (by omega) (by omega) rfl rfl rfl rfl p q]
      rw [← hnext_eq]
    · intro p hp
      exact visAt_set inv.wf hnext hveq p hp
    · obtain ⟨hw1, hw2, hw3⟩ := inv.wf
      refine ⟨?_, ?_, ?_⟩
      · show (m.horizontalEdges.set (m.nCols * node.1 + node.2).toNat true).length = ((m.nRows - 1) * m.nCols).toNat
        rw [List.length_set]
        exact hw1
      · exact hw2
      · show v.length = (m.nRows * m.nCols).toNat
        rw [hveq, List.length_set]
        exact hw3
    · show (m.horizontalEdges.set (m.nCols * node.1 + node.2).toNat true).count true + m.verticalEdges.count true = m.horizontalEdges.count true + m.verticalEdges.count true + 1
      rw [count_after_set_false hs0 hslot]
      omega
    · show v.count true = m.visited.count true + 1
      rw [hveq, count_after_set_false hnidx0 hvv]
  case EAST =>
    obtain ⟨hb, hcell⟩ := get_cell_at_eq hc
    have hnext_eq : next = (node.1, node.2 + 1) := hcell
    obtain ⟨hr0, hrR, hc0, hcC, hm1⟩ := set_edge_at_east hs
    subst hm1
    have hv' : pySet m.visited (next.1 * m.nCols + next.2) true = some v := hv
    obtain ⟨hvlt, hveq⟩ := pySet_some_nonneg hnidx0 hv'
    have hslot : pyGet m.verticalEdges (m.nCols * node.1 - node.1 + node.2) = some false := by
      apply east_slot_false inv.step_vis inv.wf (by omega) (by omega)
        (by omega) (by omega)
      right
      rw [← hnext_eq]
      exact hnnv
    obtain ⟨hs0, _⟩ := eslot_range (R := m.nRows) (C := m.nCols)
      (r := node.1) (c := node.2) (by omega) (by omega) (by omega) (by omega)
    have hgeq : ({ { m with verticalEdges := m.verticalEdges.set (m.nCols * node.1 - node.1 + node.2).toNat true } with visited := v } : Maze) = { m with verticalEdges := m.verticalEdges.set (m.nCols * node.1 - node.1 + node.2).toNat true, visited := v } := rfl
    rw [hgeq]
    refine ⟨carve_common inv hnode hnvis hnext hnnv rfl rfl ?_ ?_ ?_ ?_ ?_,
      rfl, rfl, fun p hp hvp => (visAt_set inv.wf hnext hveq p hp).mpr
        (Or.inr hvp)⟩
    · intro p q
      rw [stepRel_after_east (a := node.1) (b := node.2)
        (n := { m with verticalEdges := m.verticalEdges.set (m.nCols * node.1 - node.1 + node.2).toNat true, visited := v })
        inv.wf (by omega) (by omega) (by omega) (by omega) rfl rfl rfl rfl p q]
      rw [← hnext_eq]
    · intro p hp
      exact visAt_set inv.wf hnext hveq p hp
    · obtain ⟨hw1, hw2, hw3⟩ := inv.wf
      refine ⟨?_, ?_, ?_⟩
      · exact hw1
      · show (m.verticalEdges.set (m.nCols * node.1 - node.1 + node.2).toNat true).length = ((m.nCols - 1) * m.nRows).toNat
        rw [List.length_set]
        exact hw2
      · show v.length = (m.nRows * m.nCols).toNat
        rw [hveq, List.length_set]
        exact hw3
    · show m.horizontalEdges.count true + (m.verticalEdges.set (m.nCols * node.1 - node.1 + node.2).toNat true).count true = m.horizontalEdges.count true + m.verticalEdges.count true + 1
      rw [count_after_set_false hs0 hslot]
      omega
    · show v.count true = m.visited.count true + 1
      rw [hveq, count_after_set_false hnidx0 hvv]
  case WEST =>
    obtain ⟨hb, hcell⟩ := get_cell_at_eq hc
    have hnext_eq : next = (node.1, node.2 - 1) := hcell
    obtain ⟨hr0, hrR, hc0, hcC, hm1⟩ := set_edge_at_west hs
    subst hm1
    have hv' : pySet m.visited (next.1 * m.nCols + next.2) true = some v := hv
    obtain ⟨hvlt, hveq⟩ := pySet_some_nonneg hnidx0 hv'
    have hslot : pyGet m.verticalEdges (m.nCols * node.1 - node.1 + (node.2 - 1)) = some false := by
      apply east_slot_false inv.step_vis inv.wf (by omega) (by omega)
        (by omega) (by omega)
      left
      rw [← hnext_eq]
      exact hnnv
    obtain ⟨hs0, _⟩ := eslot_range (R := m.nRows) (C := m.nCols)
      (r := node.1) (c := node.2 - 1) (by omega) (by omega) (by omega) (by omega)
    have hgeq : ({ { m with verticalEdges := m.verticalEdges.set (m.nCols * node.1 - node.1 + (node.2 - 1)).toNat true } with visited := v } : Maze) = { m with verticalEdges := m.verticalEdges.set (m.nCols * node.1 - node.1 + (node.2 - 1)).toNat true, visited := v } := rfl
    rw [hgeq]
    refine ⟨carve_common inv hnode hnvis hnext hnnv rfl rfl ?_ ?_ ?_ ?_ ?_,
      rfl, rfl, fun p hp hvp => (visAt_set inv.wf hnext hveq p hp).mpr
        (Or.inr hvp)⟩
    · intro p q
      rw [stepRel_after_east (a := node.1) (b := node.2 - 1)
        (n := { m with verticalEdges := m.verticalEdges.set (m.nCols * node.1 - node.1 + (node.2 - 1)).toNat true, visited := v })
        inv.wf (by omega) (by omega) (by omega) (by omega) rfl rfl rfl rfl p q]
      rw [← hnext_eq]
      have hnode_eq : node = (node.1, node.2 - 1 + 1) := by
        refine Prod.ext ?_ ?_
        · rfl
        · show node.2 = node.2 - 1 + 1
          omega
      rw [← hnode_eq]
      tauto
    · intro p hp
      exact visAt_set inv.wf hnext hveq p hp
    · obtain ⟨hw1, hw2, hw3⟩ := inv.wf
      refine ⟨?_, ?_, ?_⟩
      · exact hw1
      · show (m.verticalEdges.set (m.nCols * node.1 - node.1 + (node.2 - 1)).toNat true).length = ((m.nCols - 1) * m.nRows).toNat
        rw [List.length_set]
        exact hw2
      · show v.length = (m.nRows * m.nCols).toNat
        rw [hveq, List.length_set]
        exact hw3
    · show m.horizontalEdges.count true + (m.verticalEdges.set (m.nCols * node.1 - node.1 + (node.2 - 1)).toNat true).count true = m.horizontalEdges.count true + m.verticalEdges.count true + 1
      rw [count_after_set_false hs0 hslot]
      omega
    · show v.count true = m.visited.count true + 1
      rw [hveq, count_after_set_false hnidx0 hvv]

theorem hnv_branch_le {m : Maze} {x y acc res : Int} {P : Prop}
    [inst : Decidable P]
    (h : (if P then do
        let i ← get_cell_index m x y
        let b ← pyGet m.visited i
        pure (if b = false then acc + 1 else acc)
      else pure acc : Option Int) = some res) :
    acc ≤ res ∧ (P → ¬ visAt m (x, y) → acc + 1 ≤ res) := by
  by_cases hP : P
  · rw [if_pos hP] at h
    obtain ⟨i, hi, h⟩ := bind_some_ex h
    obtain ⟨b, hb, h⟩ := bind_some_ex h
    have hres := Option.some.inj h
    obtain ⟨hx1, hx2, hy1, hy2, hieq⟩ := get_cell_index_eq hi
    subst hieq
    constructor
    · rw [← hres]
      split <;> omega
    · intro _ hnv
      have hbf : b = false := by
        cases b
        · rfl
        · exact absurd hb hnv
      subst hbf
      rw [← hres]
      simp
  · rw [if_neg hP] at h
    have hres := Option.some.inj h
    exact ⟨by omega, fun hP' => absurd hP' hP⟩

/-- If `_has_non_visited_neighbours` returns `0`, every in-bounds
neighbour of the cell is visited. -/
theorem hnv_zero {m : Maze} {r c : Int} (hwf : WF m)
    (hin : inBounds m (r, c))
    (h : has_non_visited_neighbours m r c = some 0) :
    ∀ q, inBounds m q → adjacent (r, c) q → visAt m q := by
  obtain ⟨hr0, hrR, hc0, hcC⟩ := hin
  unfold has_non_visited_neighbours at h
  obtain ⟨c1, hc1, h⟩ := bind_some_ex h
  obtain ⟨c2, hc2, h⟩ := bind_some_ex h
  obtain ⟨c3, hc3, h⟩ := bind_some_ex h
  obtain ⟨c4, hc4, h⟩ := bind_some_ex h
  have hc40 : c4 = 0 := Option.some.inj h
  obtain ⟨l1, g1⟩ := hnv_branch_le hc1
  obtain ⟨l2, g2⟩ := hnv_branch_le hc2
  obtain ⟨l3, g3⟩ := hnv_branch_le hc3
  obtain ⟨l4, g4⟩ := hnv_branch_le hc4
  intro q hq hadj
  by_contra hqv
  obtain ⟨hq1, hq2, hq3, hq4⟩ := hq
  rcases hadj with ⟨e1, e2⟩ | ⟨e1, e2⟩ | ⟨e1, e2⟩ | ⟨e1, e2⟩
  · -- q is the south neighbour (r+1, c)
    have hqe : q = (r + 1, c) := Prod.ext (by omega) (by omega)
    rw [hqe] at hqv
    have := g2 (by omega) hqv
    omega
  · -- q is the north neighbour (r-1, c)
    have hqe : q = (r - 1, c) := Prod.ext (by omega) (by omega)
    rw [hqe] at hqv
    have := g1 (by omega) hqv
    omega
  · -- q is the east neighbour (r, c+1)
    have hqe : q = (r, c + 1) := Prod.ext (by omega) (by omega)
    rw [hqe] at hqv
    have := g4 (by omega) hqv
    omega
  · -- q is the west neighbour (r, c-1)
    have hqe : q = (r, c - 1) := Prod.ext (by omega) (by omega)
    rw [hqe] at hqv
    have := g3 (by omega) hqv
    omega

/-- The whole direction loop of one iteration preserves the invariant,
for any direction list, provided the popped `node` is in bounds and
visited. -/
theorem carve_dirs_inv {start : Int × Int} :
    ∀ (ds : List Direction) (m : Maze) (stack : List (Int × Int))
      (node : Int × Int) (out : Maze × List (Int × Int)),
      Inv start m stack → inBounds m node → visAt m node →
      carve_dirs m node ds stack = some out →
      Inv start out.1 out.2 ∧ out.1.nRows = m.nRows ∧ out.1.nCols = m.nCols ∧
        ∀ p, p ∈ stack → p ∈ out.2 := by
  intro ds
  induction ds with
  | nil =>
    intro m stack node out inv hni hnv h
    have h' := Option.some.inj h
    subst h'
    exact ⟨inv, rfl, rfl, fun p hp => hp⟩
  | cons d rest ih =>
    intro m stack node out inv hni hnv h
    rw [carve_dirs] at h
    obtain ⟨next, hc, h⟩ := bind_some_ex h
    by_cases h1 : (next.1 < 0 ∨ next.1 ≥ m.nRows)
    · rw [if_pos h1] at h
      exact ih m stack node out inv hni hnv h
    · rw [if_neg h1] at h
      by_cases h2 : (next.2 < 0 ∨ next.2 ≥ m.nCols)
      · rw [if_pos h2] at h
        exact ih m stack node out inv hni hnv h
      · rw [if_neg h2] at h
        obtain ⟨nidx, hci, h⟩ := bind_some_ex h
        obtain ⟨vis, hvv, h⟩ := bind_some_ex h
        by_cases h3 : (vis = true)
        · rw [if_pos h3] at h
          exact ih m stack node out inv hni hnv h
        · rw [if_neg h3] at h
          have hvfalse : vis = false := by
            cases vis
            · rfl
            · exact absurd rfl h3
          subst hvfalse
          obtain ⟨m1, hs, h⟩ := bind_some_ex h
          obtain ⟨v, hv, h⟩ := bind_some_ex h
          have hnext : inBounds m next := ⟨by omega, by omega, by omega,
            by omega⟩
          obtain ⟨inv2, hdR, hdC, hmono⟩ :=
            carve_action_inv inv hni hnv hc hnext hci hvv hs hv
          have hni2 : inBounds { m1 with visited := v } node :=
            (inBounds_dims hdR hdC node).mpr hni
          have hnv2 : visAt { m1 with visited := v } node := hmono node hni hnv
          obtain ⟨invOut, hR2, hC2, hsub⟩ :=
            ih { m1 with visited := v } (next :: stack) node out inv2 hni2
              hnv2 h
          refine ⟨invOut, hR2.trans hdR, hC2.trans hdC, ?_⟩
          intro p hp
          exact hsub p (List.mem_cons_of_mem _ hp)

/-- If the carving loop runs to normal completion, the invariant holds of
the final maze with an empty stack. -/
theorem carve_loop_inv {start : Int × Int} (rnd : Nat → List Direction) :
    ∀ (fuel k : Nat) (m : Maze) (stack : List (Int × Int)) (m' : Maze),
      Inv start m stack →
      carve_iter_loop rnd k fuel m stack = .ok m' →
      Inv start m' [] ∧ m'.nRows = m.nRows ∧ m'.nCols = m.nCols := by
  intro fuel
  induction fuel with
  | zero =>
    intro k m stack m' inv h
    simp [carve_iter_loop] at h
  | succ fuel ih =>
    intro k m stack m' inv h
    cases stack with
    | nil =>
      rw [carve_iter_loop] at h
      have h' : m = m' := CarveRes.ok.inj h
      subst h'
      exact ⟨inv, rfl, rfl⟩
    | cons node rest =>
      rw [carve_iter_loop] at h
      have hmem := inv.stack_mem node (List.mem_cons_self _ _)
      cases hhh : has_non_visited_neighbours m node.1 node.2 with
      | none =>
        rw [hhh] at h
        simp at h
      | some hval =>
        rw [hhh] at h
        simp only [Option.bind_eq_bind, Option.some_bind] at h
        cases hcd : carve_dirs m node (rnd k)
            (if hval ≠ 0 then node :: rest else rest) with
        | none =>
          rw [hcd] at h
          simp at h
        | some out =>
          obtain ⟨m1, s2⟩ := out
          rw [hcd] at h
          have inv1 : Inv start m (if hval ≠ 0 then node :: rest else rest) := by
            by_cases hz : hval ≠ 0
            · rw [if_pos hz]
              exact inv
            · rw [if_neg hz]
              push_neg at hz
              subst hz
              have hall := hnv_zero inv.wf hmem.1 hhh
              refine ⟨inv.wf, inv.start_in, inv.start_vis, ?_, ?_, inv.reach,
                inv.count_eq, inv.step_vis⟩
              · intro p hp
                exact inv.stack_mem p (List.mem_cons_of_mem _ hp)
              · intro p q hp hvp hq hadj hnq
                have hmemc := inv.frontier p q hp hvp hq hadj hnq
                rcases List.mem_cons.mp hmemc with he | hr
                · exfalso
                  subst he
                  exact hnq (hall q hq hadj)
                · exact hr
          obtain ⟨inv2, hdR, hdC, _⟩ :=
            carve_dirs_inv (rnd k) m _ node (m1, s2) inv1 hmem.1 hmem.2 hcd
          obtain ⟨invF, hR2, hC2⟩ := ih (k + 1) m1 s2 m' inv2 h
          exact ⟨invF, hR2.trans hdR, hC2.trans hdC⟩

/-- The invariant holds at loop entry: only the start cell is visited, all
edges are walls, and the stack holds exactly the start cell. -/
theorem init_inv {nRows nCols : Int} {s : Int × Int} {g : Option (Int × Int)}
    {v : List Bool}
    (h1 : 0 ≤ s.1) (h2 : s.1 < nRows) (h3 : 0 ≤ s.2) (h4 : s.2 < nCols)
    (hv : pySet (initMaze nRows nCols s g).visited
      (s.1 * (initMaze nRows nCols s g).nCols + s.2) true = some v) :
    Inv s { initMaze nRows nCols s g with visited := v } [s] := by
  have hwf0 : WF (initMaze nRows nCols s g) := by
    refine ⟨?_, ?_, ?_⟩ <;> simp [initMaze]
  have hs : inBounds (initMaze nRows nCols s g) s := ⟨h1, h2, h3, h4⟩
  obtain ⟨hi0, hilt⟩ := flat_range h1 h2 h3 h4
  have hv' : pySet (initMaze nRows nCols s g).visited
      (s.1 * nCols + s.2) true = some v := hv
  obtain ⟨hvlt, hveq⟩ := pySet_some_nonneg hi0 hv'
  have hvis := visAt_set hwf0 hs hveq
  have hnovis : ∀ p : Int × Int,
      ¬ visAt (initMaze nRows nCols s g) p := by
    intro p
    exact pyGet_replicate_false _ _
  have hvisM : ∀ p, inBounds (initMaze nRows nCols s g) p →
      (visAt { initMaze nRows nCols s g with visited := v } p ↔ p = s) := by
    intro p hp
    constructor
    · intro hx
      rcases (hvis p hp).mp hx with he | hf
      · exact he
      · exact absurd hf (hnovis p)
    · intro he
      exact (hvis p hp).mpr (Or.inl he)
  have hstart : visAt { initMaze nRows nCols s g with visited := v } s :=
    (hvisM s hs).mpr rfl
  have hfalse : pyGet (initMaze nRows nCols s g).visited
      (s.1 * nCols + s.2) = some false := by
    obtain ⟨b, hb⟩ := pyGet_of_lt hi0 hvlt
    have hbf : b = false := by
      cases b
      · rfl
      · exact absurd hb (pyGet_replicate_false _ _)
    rw [hb, hbf]
  refine ⟨?_, hs, hstart, ?_, ?_, ?_, ?_, ?_⟩
  · refine ⟨?_, ?_, ?_⟩
    · simpa using hwf0.1
    · simpa using hwf0.2.1
    · show v.length = _
      rw [hveq, List.length_set]
      exact hwf0.2.2
  · intro p hp
    rcases List.mem_singleton.mp hp with rfl
    exact ⟨hs, hstart⟩
  · intro p q hp hvp _ _ _
    have := (hvisM p hp).mp hvp
    rw [this]
    exact List.mem_singleton.mpr rfl
  · intro p hp hvp
    have := (hvisM p hp).mp hvp
    rw [this]
    exact Relation.ReflTransGen.refl
  · show (initMaze nRows nCols s g).horizontalEdges.count true +
      (initMaze nRows nCols s g).verticalEdges.count true + 1 =
      v.count true
    rw [hveq, count_after_set_false hi0 hfalse]
    show (List.replicate ((nRows - 1) * nCols).toNat false).count true +
      (List.replicate ((nCols - 1) * nRows).toNat false).count true + 1 =
      (List.replicate (nRows * nCols).toNat false).count true + 1
    simp [List.count_replicate]
  · intro p q hst
    exfalso
    obtain ⟨_, _, hcase⟩ := hst
    rcases hcase with ⟨_, _, hpass⟩ | ⟨_, _, hpass⟩ | ⟨_, _, hpass⟩ |
      ⟨_, _, hpass⟩ <;>
      exact pyGet_replicate_false _ _ hpass

/-- With an empty stack (no frontier), every in-bounds cell is visited:
otherwise walk from the start toward an unvisited cell and find a visited
cell with an unvisited neighbour, which would have to be on the stack. -/
theorem all_visited {start : Int × Int} {m : Maze} (inv : Inv start m []) :
    ∀ (n : Nat) (p : Int × Int), inBounds m p →
      ((p.1 - start.1).natAbs + (p.2 - start.2).natAbs) = n → visAt m p := by
  intro n
  induction n using Nat.strong_induction_on with
  | _ n ih =>
    intro p hp hd
    by_cases h0 : n = 0
    · subst h0
      have hps : p = start := Prod.ext (by omega) (by omega)
      rw [hps]
      exact inv.start_vis
    · obtain ⟨hs1, hs2, hs3, hs4⟩ := inv.start_in
      obtain ⟨hp1, hp2, hp3, hp4⟩ := hp
      by_cases hr : p.1 = start.1
      · -- move within the column
        by_cases hgt : start.2 < p.2
        · have hqin : inBounds m (p.1, p.2 - 1) :=
            ⟨by omega, by omega, by omega, by omega⟩
          have hqv := ih (n - 1) (by omega) (p.1, p.2 - 1) hqin (by
            show ((p.1 - start.1).natAbs + (p.2 - 1 - start.2).natAbs) = n - 1
            omega)
          by_contra hnv
          have hadj : adjacent (p.1, p.2 - 1) p :=
            Or.inr (Or.inr (Or.inl ⟨by omega, rfl⟩))
          exact absurd (inv.frontier (p.1, p.2 - 1) p hqin hqv
            ⟨hp1, hp2, hp3, hp4⟩ hadj hnv) (List.not_mem_nil _)
        · have hqin : inBounds m (p.1, p.2 + 1) :=
            ⟨by omega, by omega, by omega, by omega⟩
          have hqv := ih (n - 1) (by omega) (p.1, p.2 + 1) hqin (by
            show ((p.1 - start.1).natAbs + (p.2 + 1 - start.2).natAbs) = n - 1
            omega)
          by_contra hnv
          have hadj : adjacent (p.1, p.2 + 1) p :=
            Or.inr (Or.inr (Or.inr ⟨by omega, rfl⟩))
          exact absurd (inv.frontier (p.1, p.2 + 1) p hqin hqv
            ⟨hp1, hp2, hp3, hp4⟩ hadj hnv) (List.not_mem_nil _)
      · by_cases hgt : start.1 < p.1
        · have hqin : inBounds m (p.1 - 1, p.2) :=
            ⟨by omega, by omega, by omega, by omega⟩
          have hqv := ih (n - 1) (by omega) (p.1 - 1, p.2) hqin (by
            show ((p.1 - 1 - start.1).natAbs + (p.2 - start.2).natAbs) = n - 1
            omega)
          by_contra hnv
          have hadj : adjacent (p.1 - 1, p.2) p :=
            Or.inl ⟨by omega, rfl⟩
          exact absurd (inv.frontier (p.1 - 1, p.2) p hqin hqv
            ⟨hp1, hp2, hp3, hp4⟩ hadj hnv) (List.not_mem_nil _)
        · have hqin : inBounds m (p.1 + 1, p.2) :=
            ⟨by omega, by omega, by omega, by omega⟩
          have hqv := ih (n - 1) (by omega) (p.1 + 1, p.2) hqin (by
            show ((p.1 + 1 - start.1).natAbs + (p.2 - start.2).natAbs) = n - 1
            omega)
          by_contra hnv
          have hadj : adjacent (p.1 + 1, p.2) p :=
            Or.inr (Or.inl ⟨by omega, rfl⟩)
          exact absurd (inv.frontier (p.1 + 1, p.2) p hqin hqv
            ⟨hp1, hp2, hp3, hp4⟩ hadj hnv) (List.not_mem_nil _)

/-- If every in-bounds cell is visited, the visited array is all `True`. -/
theorem visited_all_true {m : Maze} (hwf : WF m) (hR : 1 ≤ m.nRows)
    (hC : 1 ≤ m.nCols) (hall : ∀ p, inBounds m p → visAt m p) :
    m.visited.count true = m.visited.length := by
  rw [List.count_eq_length]
  intro b hb
  obtain ⟨i, hi, hbi⟩ := List.getElem_of_mem hb
  have hCpos : (0:Int) < m.nCols := by omega
  have hnn : (0:Int) ≤ m.nRows * m.nCols :=
    mul_nonneg (by omega) (by omega)
  have hilt : (i : Int) < m.nRows * m.nCols := by
    have hcast : (i : Int) < (m.visited.length : Int) := by exact_mod_cast hi
    rw [hwf.2.2] at hcast
    set u := m.nRows * m.nCols with hu
    omega
  have hi0 : (0:Int) ≤ (i : Int) := by positivity
  have hr1 : (0:Int) ≤ (i : Int) / m.nCols :=
    Int.ediv_nonneg hi0 (by omega)
  have hr2 : (i : Int) / m.nCols < m.nRows :=
    (Int.ediv_lt_iff_lt_mul hCpos).mpr hilt
  have hc1 : (0:Int) ≤ (i : Int) % m.nCols :=
    Int.emod_nonneg _ (by omega)
  have hc2 : (i : Int) % m.nCols < m.nCols := Int.emod_lt_of_pos _ hCpos
  have hpin : inBounds m ((i : Int) / m.nCols, (i : Int) % m.nCols) :=
    ⟨hr1, hr2, hc1, hc2⟩
  have hvp := hall _ hpin
  have hidx : ((i : Int) / m.nCols) * m.nCols + (i : Int) % m.nCols =
      (i : Int) := by
    have := Int.ediv_add_emod (i : Int) m.nCols
    linarith [mul_comm ((i : Int) / m.nCols) m.nCols]
  have hvp' : pyGet m.visited (i : Int) = some true := by
    have : pyGet m.visited
        (((i : Int) / m.nCols) * m.nCols + (i : Int) % m.nCols) =
        some true := hvp
    rwa [hidx] at this
  have hq : m.visited[i]? = some true := by
    have h2 := hvp'
    rw [pyGet_nonneg _ _ hi0] at h2
    rwa [show ((i : Int)).toNat = i by omega] at h2
  rw [List.getElem?_eq_getElem hi] at hq
  have hval := Option.some.inj hq
  rw [← hbi, hval]

/-! ## Claim C4 -/

/-- Claim C4: every maze produced by a completed construction run (valid
dimensions, any shuffle stream, any fuel) is a spanning tree of the grid:
the two edge arrays hold exactly `n_rows * n_cols - 1` passages in total,
and every in-bounds cell is reachable from the start cell through
passages. -/
theorem C4_spanning_tree (rnd : Nat → List Direction) (fuel : Nat)
    (nRows nCols : Int) (startPos : Int × Int) (goalPos : Option (Int × Int))
    (m : Maze) (hR : 1 ≤ nRows) (hC : 1 ≤ nCols)
    (hok : create rnd fuel nRows nCols startPos goalPos = .ok m) :
    (m.horizontalEdges.count true : Int) + (m.verticalEdges.count true : Int)
      = nRows * nCols - 1 ∧
    ∀ p, inBounds m p → Reach m startPos p := by
  unfold create carve_path_iter at hok
  cases hci : get_cell_index (initMaze nRows nCols startPos goalPos)
      startPos.1 startPos.2 with
  | none =>
    rw [hci] at hok
    simp at hok
  | some i =>
    rw [hci] at hok
    simp only [Option.bind_eq_bind, Option.some_bind] at hok
    obtain ⟨h1, h2, h3, h4, hieq⟩ := get_cell_index_eq hci
    subst hieq
    cases hpv : pySet (initMaze nRows nCols startPos goalPos).visited
        (startPos.1 * (initMaze nRows nCols startPos goalPos).nCols +
          startPos.2) true with
    | none =>
      rw [hpv] at hok
      simp at hok
    | some v =>
      rw [hpv] at hok
      have hinv0 := init_inv h1 h2 h3 h4 hpv
      have hok2 : carve_iter_loop rnd 0 fuel
          { initMaze nRows nCols startPos goalPos with visited := v }
          [startPos] = .ok m := hok
      obtain ⟨invF, hdR, hdC⟩ := carve_loop_inv rnd fuel 0 _ _ m hinv0 hok2
      have hmR : m.nRows = nRows := hdR
      have hmC : m.nCols = nCols := hdC
      have hwfm : WF m := invF.wf
      have hallv : ∀ p, inBounds m p → visAt m p := by
        intro p hp
        exact all_visited invF _ p hp rfl
      have hcnt := visited_all_true hwfm (by omega) (by omega) hallv
      have hceq := invF.count_eq
      have hvlen : m.visited.length = (nRows * nCols).toNat := by
        rw [hwfm.2.2, hmR, hmC]
      have hfinal : m.horizontalEdges.count true +
          m.verticalEdges.count true + 1 = (nRows * nCols).toNat := by
        rw [hceq, hcnt, hvlen]
      constructor
      · have hcast : ((nRows * nCols).toNat : Int) = nRows * nCols :=
          Int.toNat_of_nonneg (mul_nonneg (by omega) (by omega))
        set u := nRows * nCols with hu
        omega
      · intro p hp
        exact invF.reach p hp (hallv p hp)

/-- Witness for `C4_spanning_tree` on the concrete 2×2 run `mazeA`:
3 passages and full reachability from `(0, 0)`. -/
theorem C4_witness :
    create rndA 10 2 2 (0, 0) none = .ok mazeA ∧
    ((mazeA.horizontalEdges.count true : Int) +
      (mazeA.verticalEdges.count true : Int) = 2 * 2 - 1) ∧
    ∀ p, inBounds mazeA p → Reach mazeA (0, 0) p := by
  have h := C4_spanning_tree rndA 10 2 2 (0, 0) none mazeA (by decide)
    (by decide) (by rfl)
  exact ⟨rfl, h.1, h.2⟩

/-! ## Claim C1 -/

/-- Claim C1 as stated is false: on the maze produced by `Maze(2, 2)` with
the identity shuffle stream, `move((0,0), NORTH)` hits the failed assert
`row > 0` of `_get_north_edge_idx` (modelled by `none`) instead of
returning `(False, (0,0))`. -/
theorem C1_counterexample :
    create rndA 10 2 2 (0, 0) none = .ok mazeA ∧
    inBounds mazeA (0, 0) ∧
    move mazeA (0, 0) .NORTH = none := by
  refine ⟨rfl, by decide, by decide⟩

/-- Claim C1, amended: for every maze, every in-bounds position and every
direction that points outside the grid from it, `move` raises an
`AssertionError` (modelled by `none`) — it does not return `(False, pos)`. -/
theorem C1_move_boundary_raises (m : Maze) (pos : Int × Int) (d : Direction)
    (hin : inBounds m pos)
    (hout : (d = .NORTH ∧ pos.1 = 0) ∨ (d = .SOUTH ∧ pos.1 = m.nRows - 1) ∨
      (d = .EAST ∧ pos.2 = m.nCols - 1) ∨ (d = .WEST ∧ pos.2 = 0)) :
    move m pos d = none := by
  obtain ⟨h1, h2, h3, h4⟩ := hin
  have hidx : get_edge_idx m pos.1 pos.2 d = none := by
    rcases hout with ⟨hd, he⟩ | ⟨hd, he⟩ | ⟨hd, he⟩ | ⟨hd, he⟩ <;> subst hd <;>
      simp only [get_edge_idx, get_north_edge_idx, get_south_edge_idx,
        get_east_edge_idx, get_west_edge_idx] <;>
      rw [if_neg] <;> omega
  simp [move, get_edge_at, hidx]

/-- Witness for `C1_move_boundary_raises` at the concrete maze `mazeA`,
position `(1, 1)` and direction `SOUTH`. -/
theorem C1_witness :
    inBounds mazeA (1, 1) ∧ move mazeA (1, 1) .SOUTH = none :=
  ⟨by decide, C1_move_boundary_raises mazeA (1, 1) .SOUTH (by decide)
    (Or.inr (Or.inl ⟨rfl, by decide⟩))⟩

/-! ## Claim C2 -/

/-- Claim C2 fails on the code: constructing a 3×2 maze (valid dimensions,
in-bounds start `(0,0)`) with the shuffle stream `rndC2` aborts in an
`AssertionError`, because `_get_west_edge_idx` asserts `row < n_cols`
(a slip for `n_rows`) when the carver carves west from cell `(2, 1)`. -/
theorem C2_construction_aborts :
    create rndC2 10 3 2 (0, 0) none = .fail := by decide

/-! ## Claim C3 -/

/-- Claim C3 as stated is false: `Maze.__init__` performs no validation,
so an out-of-bounds `goal_pos = (5, 5)` on a 2×2 grid is accepted and
construction returns a maze instead of failing with `OutOfBounds`. -/
theorem C3_counterexample :
    create rndA 20 2 2 (0, 0) (some (5, 5)) = .ok mazeGoalOOB ∧
    ¬ inBounds mazeGoalOOB mazeGoalOOB.goalPos := by
  refine ⟨rfl, by decide⟩

/-- Claim C3, amended: the constructor has no explicit validation and no
`InvalidDimensions` / `OutOfBounds` errors; whenever `n_rows < 1` or
`n_cols < 1` or `start_pos` is out of bounds, construction fails with an
`AssertionError` raised by `_get_cell_index` during carving (modelled by
`.fail`), while `goal_pos` is never checked. -/
theorem C3_no_validation (rnd : Nat → List Direction) (fuel : Nat)
    (nRows nCols : Int) (s : Int × Int) (g : Option (Int × Int))
    (h : nRows < 1 ∨ nCols < 1 ∨
      ¬ (0 ≤ s.1 ∧ s.1 < nRows ∧ 0 ≤ s.2 ∧ s.2 < nCols)) :
    create rnd fuel nRows nCols s g = .fail := by
  have hidx : get_cell_index (initMaze nRows nCols s g) s.1 s.2 = none := by
    simp only [get_cell_index, initMaze]
    rw [if_neg]; omega
  simp [create, carve_path_iter, hidx]

/-- Witness for `C3_no_validation` with `n_rows = 0`. -/
theorem C3_witness : create rndA 5 0 5 (0, 0) none = .fail :=
  C3_no_validation rndA 5 0 5 (0, 0) none (Or.inl (by decide))

/-! ## Claim C6 -/

/-- The even-row body of `make_binary_map`'s inner loop, as a named
function (definitionally equal to the lambda in `make_binary_map`). -/
def binInnerEven (mz : Maze) (r rIdx edgeStartIdx : Int) (ret2 : NpMat)
    (cIdx : Int) : Option NpMat := do
  let ret3 ← (if cIdx > 0 then do
      let v ← pyGet mz.verticalEdges (edgeStartIdx + cIdx - 1)
      npSet ret2 r (2 * cIdx - 1) (1 * boolToInt v)
    else pure ret2)
  npSet ret3 (2 * rIdx) (2 * cIdx) 1

/-- The odd-row body of `make_binary_map`'s inner loop. -/
def binInnerOdd (mz : Maze) (r rIdx : Int) (ret2 : NpMat) (cIdx : Int) :
    Option NpMat := do
  let edgeStartIdx := mz.nCols * (rIdx - 1)
  let v ← pyGet mz.horizontalEdges (edgeStartIdx + cIdx)
  npSet ret2 r (2 * cIdx) (1 * boolToInt v)

/-- The per-row body of `make_binary_map`'s outer loop. -/
def binOuterBody (mz : Maze) (ret : NpMat) (r : Int) : Option NpMat :=
  if Int.fmod r 2 = 0 then
    let rIdx := Int.fdiv r 2
    let edgeStartIdx := mz.nCols * rIdx - rIdx
    (intRange mz.nCols).foldlM (binInnerEven mz r rIdx edgeStartIdx) ret
  else
    let rIdx := Int.fdiv (r + 1) 2
    if rIdx > 0 then (intRange mz.nCols).foldlM (binInnerOdd mz r rIdx) ret
    else pure ret

theorem make_binary_map_eq (mz : Maze) :
    make_binary_map mz =
      (intRange (mz.nRows + (mz.nRows - 1))).foldlM (binOuterBody mz)
        (npZeros (mz.nRows + (mz.nRows - 1))
          (mz.nCols + (mz.nCols - 1))) := rfl

/-- `intRange` over a `Nat` bound, for induction. -/
def intRangeN (K : Nat) : List Int := (List.range K).map Int.ofNat

theorem intRange_eq (n : Int) : intRange n = intRangeN n.toNat := rfl

theorem intRangeN_succ (K : Nat) :
    intRangeN (K + 1) = intRangeN K ++ [((K : Nat) : Int)] := by
  unfold intRangeN
  rw [List.range_succ, List.map_append]
  rfl

/-- The intended value of the binary map at position `(a, b)`. -/
def binVal (mz : Maze) (a b : Int) : Int :=
  if a % 2 = 0 then
    if b % 2 = 0 then 1
    else boolToInt ((pyGet mz.verticalEdges
      (mz.nCols * (a / 2) - a / 2 + (b - 1) / 2)).getD false)
  else
    boolToInt ((pyGet mz.horizontalEdges
      (mz.nCols * ((a + 1) / 2 - 1) + b / 2)).getD false)

theorem binVal_even_even (mz : Maze) {a b : Int} (ha : a % 2 = 0)
    (hb : b % 2 = 0) : binVal mz a b = 1 := by
  unfold binVal
  rw [if_pos ha, if_pos hb]

theorem binVal_even_odd (mz : Maze) {a b : Int} (ha : a % 2 = 0)
    (hb : b % 2 = 1) :
    binVal mz a b = boolToInt ((pyGet mz.verticalEdges
      (mz.nCols * (a / 2) - a / 2 + (b - 1) / 2)).getD false) := by
  unfold binVal
  rw [if_pos ha, if_neg (by omega)]

theorem binVal_odd (mz : Maze) {a b : Int} (ha : a % 2 = 1) :
    binVal mz a b = boolToInt ((pyGet mz.horizontalEdges
      (mz.nCols * ((a + 1) / 2 - 1) + b / 2)).getD false) := by
  unfold binVal
  rw [if_neg (by omega)]

theorem npSet_pos {M : NpMat} {i j v : Int} (h1 : 0 ≤ i) (h2 : i < M.rows)
    (h3 : 0 ≤ j) (h4 : j < M.cols) :
    npSet M i j v = some { M with data := fun a b =>
      if a = i ∧ b = j then v else M.data a b } := by
  unfold npSet
  rw [if_pos ⟨h1, h2, h3, h4⟩]

/-- Characterization of the even-row inner loop: after processing columns
`0..K-1`, row `2*rIdx` holds `binVal` at the positions `0..2K-2` and
nothing else changed. -/
theorem binInnerEven_fold {mz : Maze} (hwf : WF mz) {rIdx : Int}
    (h0 : 0 ≤ rIdx) (hRr : rIdx < mz.nRows) {M : NpMat}
    (hrows : M.rows = 2 * mz.nRows - 1) (hcols : M.cols = 2 * mz.nCols - 1) :
    ∀ K : Nat, (K : Int) ≤ mz.nCols →
      ∃ M', (intRangeN K).foldlM
          (binInnerEven mz (2 * rIdx) rIdx (mz.nCols * rIdx - rIdx)) M =
          some M' ∧
        M'.rows = M.rows ∧ M'.cols = M.cols ∧
        ∀ a b, M'.data a b =
          if a = 2 * rIdx ∧ 0 ≤ b ∧ b ≤ 2 * (K : Int) - 2 then binVal mz a b
          else M.data a b := by
  intro K
  induction K with
  | zero =>
    intro _
    refine ⟨M, rfl, rfl, rfl, ?_⟩
    intro a b
    rw [if_neg (by omega)]
  | succ K ih =>
    intro hK1
    have hKC : (K : Int) ≤ mz.nCols := by push_cast at hK1 ⊢; omega
    have hKC2 : ((K : Int)) + 1 ≤ mz.nCols := by push_cast at hK1; omega
    obtain ⟨M1, hfold, hrows1, hcols1, hdata1⟩ := ih hKC
    rw [intRangeN_succ, List.foldlM_append, hfold]
    simp only [Option.bind_eq_bind, Option.some_bind, List.foldlM_cons,
      List.foldlM_nil, bind_pure]
    unfold binInnerEven
    by_cases hK0 : ((K : Int) > 0)
    · have hnn : (0:Int) ≤ (mz.nCols - 1) * rIdx :=
        mul_nonneg (by omega) h0
      have he1 : mz.nCols * rIdx - rIdx + (K:Int) - 1 =
          (mz.nCols - 1) * rIdx + ((K:Int) - 1) := by ring
      have hidx0 : (0:Int) ≤ mz.nCols * rIdx - rIdx + (K:Int) - 1 := by
        rw [he1]; linarith
      have hmul : (mz.nCols - 1) * (rIdx + 1) ≤ (mz.nCols - 1) * mz.nRows :=
        mul_le_mul_of_nonneg_left (by omega) (by omega)
      have he2 : (mz.nCols - 1) * (rIdx + 1) =
          (mz.nCols - 1) * rIdx + (mz.nCols - 1) := by ring
      have hidxlt : mz.nCols * rIdx - rIdx + (K:Int) - 1 <
          (mz.nCols - 1) * mz.nRows := by
        rw [he1]; linarith
      obtain ⟨bv, hbv⟩ := pyGet_bounded hidx0 hidxlt hwf.2.1
      rw [if_pos hK0, hbv]
      simp only [Option.bind_eq_bind, Option.some_bind]
      rw [npSet_pos (by omega)
        (by rw [hrows1, hrows]; omega) (by omega)
        (by rw [hcols1, hcols]; omega)]
      simp only [Option.bind_eq_bind, Option.some_bind]
      rw [npSet_pos (by omega)
        (by show (2:Int) * rIdx < M1.rows; rw [hrows1, hrows]; omega)
        (by omega)
        (by show (2:Int) * (K:Int) < M1.cols; rw [hcols1, hcols]; omega)]
      refine ⟨_, rfl, hrows1, hcols1, ?_⟩
      intro a b
      dsimp only
      rw [hdata1 a b]
      by_cases hA : a = 2 * rIdx ∧ b = 2 * (K:Int)
      · rw [if_pos hA, if_pos (by push_cast; omega)]
        obtain ⟨ha2, hb2⟩ := hA
        subst ha2; subst hb2
        rw [binVal_even_even mz (by omega) (by omega)]
      · rw [if_neg hA]
        by_cases hB : a = 2 * rIdx ∧ b = 2 * (K:Int) - 1
        · rw [if_pos hB, if_pos (by push_cast; omega)]
          obtain ⟨ha2, hb2⟩ := hB
          subst ha2; subst hb2
          rw [binVal_even_odd mz (by omega) (by omega)]
          rw [show (2 * rIdx) / 2 = rIdx from by omega]
          rw [show (2 * (K:Int) - 1 - 1) / 2 = (K:Int) - 1 from by omega]
          rw [show mz.nCols * rIdx - rIdx + ((K:Int) - 1) =
            mz.nCols * rIdx - rIdx + (K:Int) - 1 from by ring]
          rw [hbv]
          simp
        · rw [if_neg hB]
          by_cases hC : a = 2 * rIdx ∧ 0 ≤ b ∧ b ≤ 2 * (K:Int) - 2
          · rw [if_pos hC, if_pos (by push_cast; omega)]
          · rw [if_neg hC, if_neg (by push_cast; omega)]
    · rw [if_neg hK0]
      simp only [Option.bind_eq_bind, pure_bind]
      rw [npSet_pos (by omega)
        (by show (2:Int) * rIdx < M1.rows; rw [hrows1, hrows]; omega)
        (by omega)
        (by show (2:Int) * (K:Int) < M1.cols; rw [hcols1, hcols]; omega)]
      refine ⟨_, rfl, hrows1, hcols1, ?_⟩
      intro a b
      dsimp only
      rw [hdata1 a b]
      have hK00 : (K:Int) = 0 := by omega
      by_cases hA : a = 2 * rIdx ∧ b = 2 * (K:Int)
      · rw [if_pos hA, if_pos (by push_cast; omega)]
        obtain ⟨ha2, hb2⟩ := hA
        subst ha2; subst hb2
        rw [binVal_even_even mz (by omega) (by omega)]
      · rw [if_neg hA, if_neg (by omega), if_neg (by push_cast; omega)]

/-- Characterization of the odd-row inner loop: after processing columns
`0..K-1`, row `r = 2*rIdx - 1` holds `binVal` at the even positions
`0, 2, ..., 2K-2` and nothing else changed. -/
theorem binInnerOdd_fold {mz : Maze} (hwf : WF mz) {rIdx : Int}
    (hr1 : 1 ≤ rIdx) (hrR : rIdx ≤ mz.nRows - 1) {M : NpMat}
    (hrows : M.rows = 2 * mz.nRows - 1) (hcols : M.cols = 2 * mz.nCols - 1) :
    ∀ K : Nat, (K : Int) ≤ mz.nCols →
      ∃ M', (intRangeN K).foldlM (binInnerOdd mz (2 * rIdx - 1) rIdx) M =
          some M' ∧
        M'.rows = M.rows ∧ M'.cols = M.cols ∧
        ∀ a b, M'.data a b =
          if a = 2 * rIdx - 1 ∧ 0 ≤ b ∧ b ≤ 2 * (K : Int) - 2 ∧ b % 2 = 0
          then binVal mz a b
          else M.data a b := by
  intro K
  induction K with
  | zero =>
    intro _
    refine ⟨M, rfl, rfl, rfl, ?_⟩
    intro a b
    rw [if_neg (by omega)]
  | succ K ih =>
    intro hK1
    have hKC : (K : Int) ≤ mz.nCols := by push_cast at hK1 ⊢; omega
    have hKC2 : ((K : Int)) + 1 ≤ mz.nCols := by push_cast at hK1; omega
    obtain ⟨M1, hfold, hrows1, hcols1, hdata1⟩ := ih hKC
    rw [intRangeN_succ, List.foldlM_append, hfold]
    simp only [Option.bind_eq_bind, Option.some_bind, List.foldlM_cons,
      List.foldlM_nil, bind_pure]
    simp only [binInnerOdd]
    have hnn : (0:Int) ≤ mz.nCols * (rIdx - 1) :=
      mul_nonneg (by omega) (by omega)
    have hidx0 : (0:Int) ≤ mz.nCols * (rIdx - 1) + (K:Int) := by linarith
    have hmul : mz.nCols * rIdx ≤ mz.nCols * (mz.nRows - 1) :=
      mul_le_mul_of_nonneg_left (by omega) (by omega)
    have he1 : mz.nCols * rIdx = mz.nCols * (rIdx - 1) + mz.nCols := by ring
    have he2 : mz.nCols * (mz.nRows - 1) = (mz.nRows - 1) * mz.nCols :=
      mul_comm _ _
    have hidxlt : mz.nCols * (rIdx - 1) + (K:Int) <
        (mz.nRows - 1) * mz.nCols := by linarith
    obtain ⟨bv, hbv⟩ := pyGet_bounded hidx0 hidxlt hwf.1
    rw [hbv]
    simp only [Option.bind_eq_bind, Option.some_bind]
    rw [npSet_pos (by omega)
      (by rw [hrows1, hrows]; omega) (by omega)
      (by rw [hcols1, hcols]; omega)]
    refine ⟨_, rfl, hrows1, hcols1, ?_⟩
    intro a b
    dsimp only
    rw [hdata1 a b]
    by_cases hA : a = 2 * rIdx - 1 ∧ b = 2 * (K:Int)
    · rw [if_pos hA, if_pos (by push_cast; omega)]
      obtain ⟨ha2, hb2⟩ := hA
      subst ha2; subst hb2
      rw [binVal_odd mz (by omega)]
      rw [show (2 * rIdx - 1 + 1) / 2 = rIdx from by omega]
      rw [show (2 * (K:Int)) / 2 = (K:Int) from by omega]
      rw [hbv]
      simp
    · rw [if_neg hA]
      by_cases hC : a = 2 * rIdx - 1 ∧ 0 ≤ b ∧ b ≤ 2 * (K:Int) - 2 ∧
          b % 2 = 0
      · rw [if_pos hC, if_pos (by push_cast; omega)]
      · rw [if_neg hC, if_neg (by push_cast; omega)]

/-- Characterization of the outer row loop of `make_binary_map`, starting
from any matrix of the right shape. -/
theorem binOuter_fold {mz : Maze} (hwf : WF mz) (hR : 1 ≤ mz.nRows)
    (hC : 1 ≤ mz.nCols) {M : NpMat}
    (hrows : M.rows = 2 * mz.nRows - 1) (hcols : M.cols = 2 * mz.nCols - 1) :
    ∀ J : Nat, (J : Int) ≤ 2 * mz.nRows - 1 →
      ∃ M', (intRangeN J).foldlM (binOuterBody mz) M = some M' ∧
        M'.rows = M.rows ∧ M'.cols = M.cols ∧
        ∀ a b, M'.data a b =
          if 0 ≤ a ∧ a < (J : Int) ∧ 0 ≤ b ∧ b ≤ 2 * mz.nCols - 2 ∧
              (a % 2 = 0 ∨ b % 2 = 0) then binVal mz a b
          else M.data a b := by
  intro J
  induction J with
  | zero =>
    intro _
    refine ⟨M, rfl, rfl, rfl, ?_⟩
    intro a b
    rw [if_neg (by omega)]
  | succ J ih =>
    intro hJ1
    have hJC : (J : Int) ≤ 2 * mz.nRows - 1 := by push_cast at hJ1 ⊢; omega
    have hJC2 : ((J : Int)) + 1 ≤ 2 * mz.nRows - 1 := by push_cast at hJ1; omega
    obtain ⟨M1, hfold, hrows1, hcols1, hdata1⟩ := ih hJC
    rw [intRangeN_succ, List.foldlM_append, hfold]
    simp only [Option.bind_eq_bind, Option.some_bind, List.foldlM_cons,
      List.foldlM_nil, bind_pure]
    unfold binOuterBody
    dsimp only
    rw [Int.fmod_eq_emod _ (by omega), Int.fdiv_eq_ediv _ (by omega),
      Int.fdiv_eq_ediv _ (by omega)]
    by_cases hpar : ((J : Int)) % 2 = 0
    · rw [if_pos hpar]
      have hre : (J : Int) = 2 * ((J : Int) / 2) := by omega
      have hr0 : 0 ≤ (J : Int) / 2 := by omega
      have hrlt : (J : Int) / 2 < mz.nRows := by omega
      obtain ⟨M2, hfold2, hrows2, hcols2, hdata2⟩ :=
        binInnerEven_fold hwf hr0 hrlt
          (M := M1) (by rw [hrows1]; exact hrows)
          (by rw [hcols1]; exact hcols) mz.nCols.toNat
          (by omega)
      rw [intRange_eq]
      rw [show (2 : Int) * ((J : Int) / 2) = (J : Int) from hre.symm]
        at hfold2 hdata2
      rw [hfold2]
      refine ⟨M2, rfl, by rw [hrows2, hrows1], by rw [hcols2, hcols1], ?_⟩
      intro a b
      rw [hdata2 a b, hdata1 a b]
      have hcast : ((mz.nCols.toNat : Int)) = mz.nCols := by omega
      rw [hcast]
      by_cases hA : a = (J : Int) ∧ 0 ≤ b ∧ b ≤ 2 * mz.nCols - 2
      · rw [if_pos hA, if_pos (by push_cast; omega)]
      · rw [if_neg hA]
        by_cases hB : 0 ≤ a ∧ a < (J : Int) ∧ 0 ≤ b ∧ b ≤ 2 * mz.nCols - 2 ∧
            (a % 2 = 0 ∨ b % 2 = 0)
        · rw [if_pos hB, if_pos (by push_cast; omega)]
        · rw [if_neg hB, if_neg (by push_cast; omega)]
    · rw [if_neg hpar]
      have hrIdx1 : 1 ≤ ((J : Int) + 1) / 2 := by omega
      have hrIdxR : ((J : Int) + 1) / 2 ≤ mz.nRows - 1 := by omega
      rw [if_pos (by omega : ((J : Int) + 1) / 2 > 0)]
      obtain ⟨M2, hfold2, hrows2, hcols2, hdata2⟩ :=
        binInnerOdd_fold hwf hrIdx1 hrIdxR
          (M := M1) (by rw [hrows1]; exact hrows)
          (by rw [hcols1]; exact hcols) mz.nCols.toNat
          (by omega)
      rw [intRange_eq]
      rw [show (2 : Int) * (((J : Int) + 1) / 2) - 1 = (J : Int) from by omega]
        at hfold2 hdata2
      rw [hfold2]
      refine ⟨M2, rfl, by rw [hrows2, hrows1], by rw [hcols2, hcols1], ?_⟩
      intro a b
      rw [hdata2 a b, hdata1 a b]
      have hcast : ((mz.nCols.toNat : Int)) = mz.nCols := by omega
      rw [hcast]
      by_cases hA : a = (J : Int) ∧ 0 ≤ b ∧ b ≤ 2 * mz.nCols - 2 ∧ b % 2 = 0
      · rw [if_pos hA, if_pos (by push_cast; omega)]
      · rw [if_neg hA]
        by_cases hB : 0 ≤ a ∧ a < (J : Int) ∧ 0 ≤ b ∧ b ≤ 2 * mz.nCols - 2 ∧
            (a % 2 = 0 ∨ b % 2 = 0)
        · rw [if_pos hB, if_pos (by push_cast; omega)]
        · rw [if_neg hB, if_neg (by push_cast; omega)]

/-- Claim C6: `make_binary_map` returns a `(2*n_rows-1) × (2*n_cols-1)`
grid whose even/even positions are `1`, odd/odd positions are `0`,
position `(2r, 2c-1)` mirrors the vertical edge between cells `(r, c-1)`
and `(r, c)`, and position `(2r-1, 2c)` mirrors the horizontal edge
between cells `(r-1, c)` and `(r, c)`.  For a 1×1 grid this specializes
to the single-entry grid `[[1]]`. -/
theorem C6_binary_map (mz : Maze) (hwf : WF mz) (hR : 1 ≤ mz.nRows)
    (hC : 1 ≤ mz.nCols) :
    ∃ M, make_binary_map mz = some M ∧
      M.rows = 2 * mz.nRows - 1 ∧ M.cols = 2 * mz.nCols - 1 ∧
      (∀ r c : Int, 0 ≤ r → r < mz.nRows → 0 ≤ c → c < mz.nCols →
        M.data (2 * r) (2 * c) = 1) ∧
      (∀ r c : Int, 0 ≤ r → r < mz.nRows - 1 → 0 ≤ c → c < mz.nCols - 1 →
        M.data (2 * r + 1) (2 * c + 1) = 0) ∧
      (∀ r c : Int, 0 ≤ r → r < mz.nRows → 1 ≤ c → c < mz.nCols → ∃ bv,
        pyGet mz.verticalEdges (mz.nCols * r - r + (c - 1)) = some bv ∧
        M.data (2 * r) (2 * c - 1) = boolToInt bv) ∧
      (∀ r c : Int, 1 ≤ r → r < mz.nRows → 0 ≤ c → c < mz.nCols → ∃ bv,
        pyGet mz.horizontalEdges (mz.nCols * (r - 1) + c) = some bv ∧
        M.data (2 * r - 1) (2 * c) = boolToInt bv) := by
  rw [make_binary_map_eq, intRange_eq]
  obtain ⟨M', hfold, hrows, hcols, hdata⟩ := binOuter_fold hwf hR hC
    (M := npZeros (mz.nRows + (mz.nRows - 1)) (mz.nCols + (mz.nCols - 1)))
    (by show mz.nRows + (mz.nRows - 1) = 2 * mz.nRows - 1; ring)
    (by show mz.nCols + (mz.nCols - 1) = 2 * mz.nCols - 1; ring)
    (mz.nRows + (mz.nRows - 1)).toNat (by omega)
  refine ⟨M', hfold, ?_, ?_, ?_, ?_, ?_, ?_⟩
  · rw [hrows]
    show mz.nRows + (mz.nRows - 1) = 2 * mz.nRows - 1
    ring
  · rw [hcols]
    show mz.nCols + (mz.nCols - 1) = 2 * mz.nCols - 1
    ring
  · intro r c h1 h2 h3 h4
    rw [hdata, if_pos (by omega)]
    exact binVal_even_even mz (by omega) (by omega)
  · intro r c h1 h2 h3 h4
    rw [hdata, if_neg (by omega)]
    rfl
  · intro r c h1 h2 h3 h4
    have hnn : (0:Int) ≤ (mz.nCols - 1) * r := mul_nonneg (by omega) h1
    have he1 : mz.nCols * r - r + (c - 1) = (mz.nCols - 1) * r + (c - 1) := by
      ring
    have hidx0 : (0:Int) ≤ mz.nCols * r - r + (c - 1) := by
      rw [he1]; linarith
    have hmul : (mz.nCols - 1) * (r + 1) ≤ (mz.nCols - 1) * mz.nRows :=
      mul_le_mul_of_nonneg_left (by omega) (by omega)
    have he2 : (mz.nCols - 1) * (r + 1) =
        (mz.nCols - 1) * r + (mz.nCols - 1) := by ring
    have hidxlt : mz.nCols * r - r + (c - 1) < (mz.nCols - 1) * mz.nRows := by
      rw [he1]; linarith
    obtain ⟨bv, hbv⟩ := pyGet_bounded hidx0 hidxlt hwf.2.1
    refine ⟨bv, hbv, ?_⟩
    rw [hdata, if_pos (by omega)]
    rw [binVal_even_odd mz (by omega) (by omega)]
    rw [show (2 * r) / 2 = r from by omega]
    rw [show (2 * c - 1 - 1) / 2 = c - 1 from by omega]
    rw [hbv]
    simp
  · intro r c h1 h2 h3 h4
    have hnn : (0:Int) ≤ mz.nCols * (r - 1) := mul_nonneg (by omega) (by omega)
    have hidx0 : (0:Int) ≤ mz.nCols * (r - 1) + c := by linarith
    have hmul : mz.nCols * r ≤ mz.nCols * (mz.nRows - 1) :=
      mul_le_mul_of_nonneg_left (by omega) (by omega)
    have he1 : mz.nCols * r = mz.nCols * (r - 1) + mz.nCols := by ring
    have he2 : mz.nCols * (mz.nRows - 1) = (mz.nRows - 1) * mz.nCols :=
      mul_comm _ _
    have hidxlt : mz.nCols * (r - 1) + c < (mz.nRows - 1) * mz.nCols := by
      linarith
    obtain ⟨bv, hbv⟩ := pyGet_bounded hidx0 hidxlt hwf.1
    refine ⟨bv, hbv, ?_⟩
    rw [hdata, if_pos (by omega)]
    rw [binVal_odd mz (by omega)]
    rw [show (2 * r - 1 + 1) / 2 = r from by omega]
    rw [show (2 * c) / 2 = c from by omega]
    rw [hbv]
    simp

/-- Witness for `C6_binary_map` on the concrete 2×2 maze `mazeA`. -/
theorem C6_witness :
    ∃ M, make_binary_map mazeA = some M ∧
      M.rows = 2 * mazeA.nRows - 1 ∧ M.cols = 2 * mazeA.nCols - 1 ∧
      (∀ r c : Int, 0 ≤ r → r < mazeA.nRows → 0 ≤ c → c < mazeA.nCols →
        M.data (2 * r) (2 * c) = 1) ∧
      (∀ r c : Int, 0 ≤ r → r < mazeA.nRows - 1 → 0 ≤ c →
          c < mazeA.nCols - 1 → M.data (2 * r + 1) (2 * c + 1) = 0) ∧
      (∀ r c : Int, 0 ≤ r → r < mazeA.nRows → 1 ≤ c → c < mazeA.nCols →
        ∃ bv, pyGet mazeA.verticalEdges
          (mazeA.nCols * r - r + (c - 1)) = some bv ∧
        M.data (2 * r) (2 * c - 1) = boolToInt bv) ∧
      (∀ r c : Int, 1 ≤ r → r < mazeA.nRows → 0 ≤ c → c < mazeA.nCols →
        ∃ bv, pyGet mazeA.horizontalEdges
          (mazeA.nCols * (r - 1) + c) = some bv ∧
        M.data (2 * r - 1) (2 * c) = boolToInt bv) :=
  C6_binary_map mazeA (by decide) (by decide) (by decide)

/-! ## Claim C5 -/

/-- Claim C5 as stated is false: on the maze produced by `Maze(2, 2)` with
the identity shuffle stream, `move((1,1), SOUTH)` raises (the failed
assert `row < n_rows - 1` of `_get_south_edge_idx`, modelled by `none`)
instead of returning `(False, (1,1))`. -/
theorem C5_counterexample :
    create rndA 10 2 2 (0, 0) none = .ok mazeA ∧
    inBounds mazeA (1, 1) ∧
    move mazeA (1, 1) .SOUTH = none := by
  refine ⟨rfl, by decide, by decide⟩

/-- Every successful edge query implies the queried cell is in bounds
(for the east/west cases this uses the length of the vertical edge
array, since the buggy assert `row < n_cols` does not bound `row` by
`n_rows`). -/
theorem get_edge_at_some_inBounds {m : Maze} {r c : Int} {d : Direction}
    {b : Bool} (hwf : WF m) (h : get_edge_at m r c d = some b) :
    0 ≤ r ∧ r < m.nRows ∧ 0 ≤ c ∧ c < m.nCols := by
  obtain ⟨hh, hv, _⟩ := hwf
  cases d <;>
    simp only [get_edge_at, get_edge_idx, get_north_edge_idx,
      get_south_edge_idx, get_east_edge_idx, get_west_edge_idx,
      Option.bind_eq_bind] at h <;> split at h
  case NORTH.isTrue hc => omega
  case NORTH.isFalse => simp at h
  case SOUTH.isTrue hc => omega
  case SOUTH.isFalse => simp at h
  case EAST.isTrue hc =>
    simp only [Option.some_bind] at h
    have h0 : (0:Int) ≤ m.nCols * r - r + c := by
      have : 0 ≤ (m.nCols - 1) * r := mul_nonneg (by omega) (by omega)
      nlinarith
    have hlen := pyGet_lt_length h0 h
    rw [hv] at hlen
    have hrw : m.nCols * r - r + c = (m.nCols - 1) * r + c := by ring
    by_contra hcon
    have hR : m.nRows ≤ r := by omega
    have : (m.nCols - 1) * m.nRows ≤ (m.nCols - 1) * r :=
      mul_le_mul_of_nonneg_left hR (by omega)
    omega
  case EAST.isFalse => simp at h
  case WEST.isTrue hc =>
    simp only [Option.some_bind] at h
    have h0 : (0:Int) ≤ m.nCols * r - r + (c - 1) := by
      have : 0 ≤ (m.nCols - 1) * r := mul_nonneg (by omega) (by omega)
      nlinarith
    have hlen := pyGet_lt_length h0 h
    rw [hv] at hlen
    have hrw : m.nCols * r - r + (c - 1) = (m.nCols - 1) * r + (c - 1) := by
      ring
    by_contra hcon
    have hR : m.nRows ≤ r := by omega
    have : (m.nCols - 1) * m.nRows ≤ (m.nCols - 1) * r :=
      mul_le_mul_of_nonneg_left hR (by omega)
    omega
  case WEST.isFalse => simp at h

/-- Claim C5, amended: when the edge query succeeds, `move(pos, dir)`
returns `(True, neighbor_cell(pos, dir))` iff the edge is a passage and
`(False, pos)` iff it is a wall; when the edge query raises (boundary
directions, and east/west queries hitting the buggy `row < n_cols`
assert), `move` raises too instead of returning `(False, pos)`. -/
theorem C5_move_consistency (m : Maze) (hwf : WF m) (pos : Int × Int)
    (d : Direction) :
    (get_edge_at m pos.1 pos.2 d = some true →
      move m pos d = some (true,
        match d with
        | .NORTH => (pos.1 - 1, pos.2)
        | .SOUTH => (pos.1 + 1, pos.2)
        | .EAST => (pos.1, pos.2 + 1)
        | .WEST => (pos.1, pos.2 - 1))) ∧
    (get_edge_at m pos.1 pos.2 d = some false →
      move m pos d = some (false, pos)) ∧
    (get_edge_at m pos.1 pos.2 d = none → move m pos d = none) := by
  refine ⟨?_, ?_, ?_⟩
  · intro h
    obtain ⟨h1, h2, h3, h4⟩ := get_edge_at_some_inBounds hwf h
    cases d <;> simp [move, h, get_cell_at, h1, h2, h3, h4]
  · intro h
    simp [move, h]
  · intro h
    simp [move, h]

/-- Witness for `C5_move_consistency`: on `mazeA` the east edge of
`(0, 0)` is a passage and `move` follows it to `(0, 1)`. -/
theorem C5_witness :
    WF mazeA ∧ move mazeA (0, 0) .EAST = some (true, (0, 1)) := by
  refine ⟨by decide, ?_⟩
  have h := (C5_move_consistency mazeA (by decide) (0, 0) .EAST).1 (by decide)
  simpa using h

/-! ## Claim C10 -/

/-- The wall-row body of `__repr__`'s inner loop, as a named function. -/
def reprHRow (m : Maze) (edgeStartIdx : Int) (a2 : List Char) (eIdx : Int) :
    Option (List Char) := do
  let b ← pyGet m.horizontalEdges (edgeStartIdx + eIdx)
  let a3 := a2 ++ [if b then ' ' else '-']
  pure (if eIdx < m.nCols - 1 then a3 ++ ['+'] else a3)

/-- The cell-row body of `__repr__`'s inner loop. -/
def reprCellRow (m : Maze) (rIdx edgeStartIdx : Int) (a2 : List Char)
    (cIdx : Int) : Option (List Char) := do
  let a3 ← (if cIdx > 0 then do
      let b ← pyGet m.verticalEdges (edgeStartIdx + cIdx - 1)
      pure (a2 ++ [if b then ' ' else '|'])
    else pure a2)
  if m.startPos = (rIdx, cIdx) then
    pure (a3 ++ ['S'])
  else if m.goalPos = (rIdx, cIdx) then
    pure (a3 ++ ['G'])
  else
    pure (a3 ++ [' '])

/-- The per-row body of `__repr__`'s outer loop. -/
def reprRowBody (m : Maze) (acc : List Char) (rIdx : Int) :
    Option (List Char) := do
  let acc1 ← (if rIdx > 0 then do
      let acc1 := acc ++ ['|']
      let edgeStartIdx := m.nCols * (rIdx - 1)
      let acc2 ← (intRange m.nCols).foldlM (reprHRow m edgeStartIdx) acc1
      pure (acc2 ++ ['|', '\n'])
    else pure acc)
  let acc2 := acc1 ++ ['|']
  let edgeStartIdx := m.nCols * rIdx - rIdx
  let acc3 ← (intRange m.nCols).foldlM (reprCellRow m rIdx edgeStartIdx) acc2
  pure (acc3 ++ ['|', '\n'])

theorem reprChars_eq (m : Maze) :
    reprChars m = (do
      let ret1 ← (intRange m.nRows).foldlM (reprRowBody m)
        (['+'] ++ List.replicate (m.nCols * 2 - 1).toNat '-' ++ ['+', '\n'])
      pure (ret1 ++ ['+'] ++
        List.replicate (m.nCols * 2 - 1).toNat '-' ++ ['+'])) := rfl

theorem count_snoc (l : List Char) (c ch : Char) :
    (l ++ [c]).count ch = l.count ch + (if c = ch then 1 else 0) := by
  simp [List.count_append, List.count_cons, beq_iff_eq]

/-- The wall rows of the rendering contain no `S` and no `G`. -/
theorem reprHRow_fold_count (m : Maze) (es : Int) (ch : Char)
    (hc1 : ch ≠ ' ') (hc2 : ch ≠ '-') (hc3 : ch ≠ '+') :
    ∀ (l : List Int) (acc out : List Char),
      l.foldlM (reprHRow m es) acc = some out →
      out.count ch = acc.count ch := by
  intro l
  induction l with
  | nil =>
    intro acc out h
    rw [← Option.some.inj h]
  | cons x xs ih =>
    intro acc out h
    rw [List.foldlM_cons] at h
    obtain ⟨y, hy, h⟩ := bind_some_ex h
    unfold reprHRow at hy
    obtain ⟨b, hb, hy⟩ := bind_some_ex hy
    have hyv := Option.some.inj hy
    have hcount : y.count ch = acc.count ch := by
      rw [← hyv]
      cases b <;> split <;>
        simp [List.count_append, List.count_cons, List.count_nil, beq_iff_eq,
          Ne.symm hc1, Ne.symm hc2, Ne.symm hc3]
    rw [ih y out h, hcount]

/-- One cell of a cell row adds an `S` exactly when the start sits there,
and adds no `G` when the goal coincides with the start. -/
theorem reprCellRow_step (m : Maze) (rIdx es cIdx : Int) (acc out : List Char)
    (h : reprCellRow m rIdx es acc cIdx = some out) :
    out.count 'S' =
      acc.count 'S' + (if m.startPos = (rIdx, cIdx) then 1 else 0) ∧
    (m.startPos = m.goalPos → out.count 'G' = acc.count 'G') := by
  unfold reprCellRow at h
  obtain ⟨a3, ha3, h⟩ := bind_some_ex h
  have hcS : a3.count 'S' = acc.count 'S' ∧ a3.count 'G' = acc.count 'G' := by
    split at ha3
    · obtain ⟨b, hb, ha3⟩ := bind_some_ex ha3
      have := Option.some.inj ha3
      rw [← this]
      cases b <;>
        simp [List.count_append, List.count_cons, List.count_nil]
    · rw [← Option.some.inj ha3]
      exact ⟨rfl, rfl⟩
  split at h
  · rename_i hs
    rw [← Option.some.inj h]
    refine ⟨?_, fun _ => ?_⟩
    · simp [List.count_append, List.count_cons, List.count_nil, hcS.1, hs]
    · simp [List.count_append, List.count_cons, List.count_nil, hcS.2]
  · split at h
    · rename_i hs hg
      rw [← Option.some.inj h]
      refine ⟨?_, fun hsg => absurd (hsg.trans hg) hs⟩
      simp [List.count_append, List.count_cons, List.count_nil, hcS.1, hs]
    · rename_i hs hg
      rw [← Option.some.inj h]
      refine ⟨?_, fun _ => ?_⟩
      · simp [List.count_append, List.count_cons, List.count_nil, hcS.1, hs]
      · simp [List.count_append, List.count_cons, List.count_nil, hcS.2]

/-- Counting markers over a whole cell row. -/
theorem reprCellRow_fold (m : Maze) (rIdx es : Int) :
    ∀ (K : Nat) (acc out : List Char),
      (intRangeN K).foldlM (reprCellRow m rIdx es) acc = some out →
      out.count 'S' = acc.count 'S' +
        (if m.startPos.1 = rIdx ∧ 0 ≤ m.startPos.2 ∧ m.startPos.2 < (K : Int)
          then 1 else 0) ∧
      (m.startPos = m.goalPos → out.count 'G' = acc.count 'G') := by
  intro K
  induction K with
  | zero =>
    intro acc out h
    rw [← Option.some.inj h]
    refine ⟨?_, fun _ => rfl⟩
    have : ¬(m.startPos.1 = rIdx ∧ 0 ≤ m.startPos.2 ∧
        m.startPos.2 < ((0 : Nat) : Int)) := by
      rintro ⟨-, h1, h2⟩; omega
    rw [if_neg this]
    omega
  | succ K ih =>
    intro acc out h
    rw [intRangeN_succ, List.foldlM_append] at h
    obtain ⟨y, hy, h⟩ := bind_some_ex h
    simp only [List.foldlM_cons, List.foldlM_nil, bind_pure] at h
    have h' : reprCellRow m rIdx es y (K : Int) = some out := h
    obtain ⟨ihS, ihG⟩ := ih acc y hy
    obtain ⟨stS, stG⟩ := reprCellRow_step m rIdx es (K : Int) y out h'
    constructor
    · rw [stS, ihS]
      simp only [Prod.ext_iff]
      push_cast
      split_ifs <;> omega
    · intro hsg
      rw [stG hsg, ihG hsg]

/-- Counting markers over one full row of the rendering (wall row plus
cell row). -/
theorem reprRowBody_count (m : Maze) (rIdx : Int) (acc out : List Char)
    (h : reprRowBody m acc rIdx = some out) :
    out.count 'S' = acc.count 'S' +
      (if m.startPos.1 = rIdx ∧ 0 ≤ m.startPos.2 ∧ m.startPos.2 < m.nCols
        then 1 else 0) ∧
    (m.startPos = m.goalPos → out.count 'G' = acc.count 'G') := by
  unfold reprRowBody at h
  obtain ⟨acc1, ha1, h⟩ := bind_some_ex h
  have hw : acc1.count 'S' = acc.count 'S' ∧ acc1.count 'G' = acc.count 'G' := by
    split at ha1
    · obtain ⟨acc2, ha2, ha1⟩ := bind_some_ex ha1
      have hS := reprHRow_fold_count m (m.nCols * (rIdx - 1)) 'S'
        (by decide) (by decide) (by decide) (intRange m.nCols) (acc ++ ['|'])
        acc2 ha2
      have hG := reprHRow_fold_count m (m.nCols * (rIdx - 1)) 'G'
        (by decide) (by decide) (by decide) (intRange m.nCols) (acc ++ ['|'])
        acc2 ha2
      rw [← Option.some.inj ha1]
      constructor
      · simp [List.count_append, List.count_cons, List.count_nil, hS]
      · simp [List.count_append, List.count_cons, List.count_nil, hG]
    · rw [← Option.some.inj ha1]
      exact ⟨rfl, rfl⟩
  obtain ⟨acc3, ha3, h⟩ := bind_some_ex h
  rw [intRange_eq] at ha3
  obtain ⟨foldS, foldG⟩ := reprCellRow_fold m rIdx (m.nCols * rIdx - rIdx)
    m.nCols.toNat (acc1 ++ ['|']) acc3 ha3
  have hcond : (m.startPos.1 = rIdx ∧ 0 ≤ m.startPos.2 ∧
      m.startPos.2 < ((m.nCols.toNat : Nat) : Int)) ↔
      (m.startPos.1 = rIdx ∧ 0 ≤ m.startPos.2 ∧ m.startPos.2 < m.nCols) := by
    constructor <;> rintro ⟨a, b, c⟩ <;> exact ⟨a, b, by omega⟩
  rw [← Option.some.inj h]
  constructor
  · rw [List.count_append, foldS, List.count_append, hw.1,
      if_congr hcond rfl rfl]
    have e1 : List.count 'S' ['|', '\n'] = 0 := by decide
    have e2 : List.count 'S' ['|'] = 0 := by decide
    rw [e1, e2]
    omega
  · intro hsg
    rw [List.count_append, foldG hsg, List.count_append, hw.2]
    have e1 : List.count 'G' ['|', '\n'] = 0 := by decide
    have e2 : List.count 'G' ['|'] = 0 := by decide
    rw [e1, e2]
    omega

/-- Counting markers over all rows of the rendering. -/
theorem reprRows_fold (m : Maze) :
    ∀ (K : Nat) (acc out : List Char),
      (intRangeN K).foldlM (reprRowBody m) acc = some out →
      out.count 'S' = acc.count 'S' +
        (if 0 ≤ m.startPos.1 ∧ m.startPos.1 < (K : Int) ∧
            0 ≤ m.startPos.2 ∧ m.startPos.2 < m.nCols then 1 else 0) ∧
      (m.startPos = m.goalPos → out.count 'G' = acc.count 'G') := by
  intro K
  induction K with
  | zero =>
    intro acc out h
    rw [← Option.some.inj h]
    refine ⟨?_, fun _ => rfl⟩
    have : ¬(0 ≤ m.startPos.1 ∧ m.startPos.1 < ((0 : Nat) : Int) ∧
        0 ≤ m.startPos.2 ∧ m.startPos.2 < m.nCols) := by
      rintro ⟨h1, h2, -⟩; omega
    rw [if_neg this]
    omega
  | succ K ih =>
    intro acc out h
    rw [intRangeN_succ, List.foldlM_append] at h
    obtain ⟨y, hy, h⟩ := bind_some_ex h
    simp only [List.foldlM_cons, List.foldlM_nil, bind_pure] at h
    have h' : reprRowBody m y (K : Int) = some out := h
    obtain ⟨ihS, ihG⟩ := ih acc y hy
    obtain ⟨stS, stG⟩ := reprRowBody_count m (K : Int) y out h'
    constructor
    · rw [stS, ihS]
      push_cast
      split_ifs <;> omega
    · intro hsg
      rw [stG hsg, ihG hsg]

/-- A 2×2 maze whose goal coincides with its start cell. -/
def mazeSG : Maze :=
  match create rndA 10 2 2 (0, 0) (some (0, 0)) with
  | .ok m => m
  | _ => initMaze 0 0 (0, 0) none

/-- The rendering of `mazeSG`. -/
def sSG : List Char := (reprChars mazeSG).getD []

/-- C10: when `start_pos` equals `goal_pos`, the `__repr__` rendering never
shows a `G` (the `elif` goal branch is shadowed by the start branch), and for
an in-bounds start it shows exactly one `S`. -/
theorem C10_repr_shadowing (m : Maze) (s : List Char)
    (hsg : m.startPos = m.goalPos) (hrc : reprChars m = some s) :
    s.count 'G' = 0 ∧ (inBounds m m.startPos → s.count 'S' = 1) := by
  rw [reprChars_eq] at hrc
  obtain ⟨ret1, hret, hrc⟩ := bind_some_ex hrc
  rw [intRange_eq] at hret
  obtain ⟨foldS, foldG⟩ := reprRows_fold m m.nRows.toNat _ ret1 hret
  have e0S : List.count 'S'
      (['+'] ++ List.replicate (m.nCols * 2 - 1).toNat '-' ++ ['+', '\n'])
      = 0 := by
    simp [List.count_append, List.count_eq_zero, List.mem_replicate]
  have e0G : List.count 'G'
      (['+'] ++ List.replicate (m.nCols * 2 - 1).toNat '-' ++ ['+', '\n'])
      = 0 := by
    simp [List.count_append, List.count_eq_zero, List.mem_replicate]
  have e2S : List.count 'S' (List.replicate (m.nCols * 2 - 1).toNat '-')
      = 0 := by
    simp [List.count_eq_zero, List.mem_replicate]
  have e2G : List.count 'G' (List.replicate (m.nCols * 2 - 1).toNat '-')
      = 0 := by
    simp [List.count_eq_zero, List.mem_replicate]
  rw [← Option.some.inj hrc]
  constructor
  · rw [List.count_append, List.count_append, List.count_append, foldG hsg,
      e0G, e2G]
    decide
  · intro hib
    have hib' : 0 ≤ m.startPos.1 ∧ m.startPos.1 < m.nRows ∧
        0 ≤ m.startPos.2 ∧ m.startPos.2 < m.nCols := hib
    rw [List.count_append, List.count_append, List.count_append, foldS,
      if_pos ⟨hib'.1, by omega, hib'.2.2.1, hib'.2.2.2⟩, e0S, e2S]
    decide

/-- `C10_repr_shadowing` on a concrete 2×2 maze whose goal equals its
start: the rendering holds no `G` and exactly one `S`. -/
theorem C10_witness :
    mazeSG.startPos = mazeSG.goalPos ∧ reprChars mazeSG = some sSG ∧
      sSG.count 'G' = 0 ∧
      (inBounds mazeSG mazeSG.startPos → sSG.count 'S' = 1) :=
  ⟨by decide, by decide,
    C10_repr_shadowing mazeSG sSG (by decide) (by decide)⟩

/-! ## Claim C7 -/

/-- Claim C7 is right about the intended mapping, but `_get_cell_coords`
divides by `n_rows` where `_get_cell_index` multiplies by `n_cols`: on a
2×3 grid the flat index of cell `(0, 2)` is `2`, and the inverse returns
`(1, 0)`, not `(0, 2)`. -/
theorem C7_roundtrip_fails :
    mazeB.nRows = 2 ∧ mazeB.nCols = 3 ∧
    get_cell_index mazeB 0 2 = some 2 ∧
    get_cell_coords mazeB 2 = some (1, 0) := by decide

/-! ## Claim C8 -/

/-- Claim C8 is right about the intended index math, but on a 3×2 grid the
cell `(2, 0)` is in bounds and has an in-bounds east neighbour `(2, 1)`,
yet `_get_east_edge_idx(2, 0)` fails its (buggy) assert `row < n_cols`
instead of returning the in-range index `2`. -/
theorem C8_east_idx_assert_fails :
    inBounds maze32 (2, 0) ∧ inBounds maze32 (2, 1) ∧
    get_east_edge_idx maze32 2 0 = none := by decide

/-! ## Claim C9 -/

/-- Claim C9 fails on the code: on a 3×2 grid with the shuffle stream
`rndC9` the carving loop aborts with an `AssertionError` (the buggy
`row < n_cols` assert of `_get_east_edge_idx`) before the stack empties,
so not every cell gets visited. -/
theorem C9_carve_aborts :
    create rndC9 10 3 2 (0, 0) none = .fail := by decide

end MazeRunner
